import Mathlib

/-!
Shallow embedding of the mutation-cluster detection core of `src/jmct/nbinom.py`.

Conventions of the embedding:
* Genomic positions are `Int` (Python ints), probabilities are `ℚ`.
  `scipy.stats.nbinom.cdf(k, n, p)` is a finite rational sum for integer `k`,
  so the probability model is embedded as that exact sum over `ℚ`.
* A pandas `DataFrame` of mutation records is a `List (String × Int)` of
  (chromosome, position) pairs in row order; the resulting cluster table is a
  `List Row` in row order (pandas' integer index is the list position).
* Python code that can raise (indexing `mutation_list[0]` on an empty list)
  is embedded with `Option`: `none` models the raised `IndexError`.
-/

/-- Partial sum of the negative-binomial pmf:
`nbinomCdfAux n p k = ∑ m in [0..k], C(m+n-1, m) * p^n * (1-p)^m`,
which is the exact value of `scipy.stats.nbinom.cdf(k, n, p)` for `k ≥ 0`. -/
def nbinomCdfAux (n : ℕ) (p : ℚ) : ℕ → ℚ
  | 0 => p ^ n
  | k + 1 => nbinomCdfAux n p k + (Nat.choose (k + n) (k + 1) : ℚ) * p ^ n * (1 - p) ^ (k + 1)

/-- `findClusterProbability` (nbinom.py lines 9-29): the negative-binomial cdf
`scipy.stats.nbinom.cdf(cluster_length, number_of_mutations, per_bp_mut_probability)`,
embedded exactly over `ℚ` (the cdf of an integer-valued distribution is `0` below `0`). -/
def findClusterProbability (cluster_length : Int) (number_of_mutations : ℕ)
    (per_bp_mut_probability : ℚ) : ℚ :=
  if cluster_length < 0 then 0
  else nbinomCdfAux number_of_mutations per_bp_mut_probability cluster_length.toNat

/-- One element of the `cluster_probabilities` list built by
`computeClusterSignificanceOfAllMutationPairs`: the tuple
`(start, end, number_of_mutations, p_cdf)`. -/
structure ClusterCandidate where
  start : Int
  endPos : Int
  mutations : ℕ
  p_value : ℚ
deriving DecidableEq, Repr

/-- The `possible_pairs` list comprehension (nbinom.py line 47):
`[(l[i], l[j]) for i in range(len(l)) for j in range(i+1, len(l))]`. -/
def possiblePairs (l : List Int) : List (Int × Int) :=
  (List.range l.length).flatMap fun i =>
    (List.range' (i + 1) (l.length - (i + 1))).map fun j => (l.getD i 0, l.getD j 0)

/-- The index pairs `(i, j)` with `i < j < n` in the enumeration order of the
`possible_pairs` comprehension: `i` increasing and, for each `i`, `j`
increasing. -/
def pairIndices (n : ℕ) : List (ℕ × ℕ) :=
  (List.range n).flatMap fun i =>
    (List.range' (i + 1) (n - (i + 1))).map fun j => (i, j)

/-- `computeClusterSignificanceOfAllMutationPairs` (nbinom.py lines 31-68):
for every pair, the span length, the count of list elements inside the closed
span, and the probability-model value; the loop's `append` is a `map`. -/
def computeClusterSignificanceOfAllMutationPairs (possible_cluster_mutation_list : List Int)
    (per_site_probability : ℚ) : List ClusterCandidate :=
  (possiblePairs possible_cluster_mutation_list).map fun pr =>
    let cluster_length := pr.2 - pr.1
    let number_of_mutations :=
      (possible_cluster_mutation_list.filter fun x => decide (pr.1 ≤ x) && decide (x ≤ pr.2)).length
    { start := pr.1, endPos := pr.2, mutations := number_of_mutations,
      p_value := findClusterProbability cluster_length number_of_mutations per_site_probability }

/-- The loop of `findPotentialClusteredMutations` (nbinom.py lines 109-118),
with `cur` playing `current_sublist` and `prev` playing `mutation_list[i-1]`. -/
def findPotentialClusteredMutationsGo (max_distance_between_mutations : Int)
    (acc : List (List Int)) (cur : List Int) (prev : Int) : List Int → List (List Int)
  | [] => if 2 ≤ cur.length then acc ++ [cur] else acc
  | x :: xs =>
    if x - prev ≤ max_distance_between_mutations then
      findPotentialClusteredMutationsGo max_distance_between_mutations acc (cur ++ [x]) x xs
    else
      findPotentialClusteredMutationsGo max_distance_between_mutations
        (if 2 ≤ cur.length then acc ++ [cur] else acc) [x] x xs

/-- `findPotentialClusteredMutations` (nbinom.py lines 70-121).
`current_sublist = [mutation_list[0]]` raises `IndexError` on an empty list,
modelled by `none`. -/
def findPotentialClusteredMutations (mutation_list : List Int)
    (max_distance_between_mutations : Int) : Option (List (List Int)) :=
  match mutation_list with
  | [] => none
  | h :: t => some (findPotentialClusteredMutationsGo max_distance_between_mutations [] [h] h t)

/-- The inner selection loop of `find_largest_significant_clusters`
(nbinom.py lines 145-151): starting from `longest_cluster = None`, keep a
candidate only if its p-value is strictly below the threshold, replacing the
current best only on a strictly larger span. -/
def pickLongestStep (min_p_value : ℚ) (longest_cluster : Option ClusterCandidate)
    (cluster : ClusterCandidate) : Option ClusterCandidate :=
  if cluster.p_value < min_p_value then
    match longest_cluster with
    | none => some cluster
    | some b => if cluster.endPos - cluster.start > b.endPos - b.start then some cluster
                else some b
  else longest_cluster

/-- The whole inner loop: a left fold of `pickLongestStep` from `None`. -/
def pickLongest (cluster_probabilities : List ClusterCandidate) (min_p_value : ℚ) :
    Option ClusterCandidate :=
  cluster_probabilities.foldl (pickLongestStep min_p_value) none

/-- `find_largest_significant_clusters` (nbinom.py lines 123-156): per run,
score all pairs and append the selected cluster when one exists; the
append-if-not-None loop is a `filterMap`. -/
def find_largest_significant_clusters (potential_clusters : List (List Int))
    (per_site_probability : ℚ) (min_p_value : ℚ) : List ClusterCandidate :=
  potential_clusters.filterMap fun possible_cluster_mutation_list =>
    pickLongest
      (computeClusterSignificanceOfAllMutationPairs possible_cluster_mutation_list
        per_site_probability)
      min_p_value

/-- One row of the `df_clusters` DataFrame (nbinom.py lines 200-209, 244-252). -/
structure Row where
  Chromosome : String
  Start : Int
  End : Int
  Length : Int
  Mutations : ℕ
  P_value : ℚ
  Per_site_mutation_probability : ℚ
  Cluster_P_value_Threshold : ℚ
deriving DecidableEq, Repr

/-- The chromosome identifier skipped by the driver (nbinom.py line 213). -/
def mitoChromosome : String := "ref|NC_001224|"

/-- `df_sample['Chromosome'].unique()`: chromosome names in first-occurrence
order (pandas `unique` keeps the first occurrence). -/
def uniqueFirst : List String → List String :=
  go []
where
  go (seen : List String) : List String → List String
    | [] => []
    | x :: xs => if x ∈ seen then go seen xs else x :: go (x :: seen) xs

/-- `df_sample[df_sample['Chromosome'] == c]['Region'].tolist()` followed by
`mutation_list.sort()`: the positions of one chromosome, sorted ascending
(Python's stable sort of integers is any sorted permutation). -/
def chromosomePositions (df_sample : List (String × Int)) (c : String) : List Int :=
  ((df_sample.filter fun r => r.1 == c).map Prod.snd).insertionSort (· ≤ ·)

/-- The row appended for one significant cluster (nbinom.py lines 240-264). -/
def rowOfCluster (c : String) (per_site_probability : ℚ) (min_p_value : ℚ)
    (sc : ClusterCandidate) : Row :=
  { Chromosome := c, Start := sc.start, End := sc.endPos,
    Length := sc.endPos - sc.start, Mutations := sc.mutations, P_value := sc.p_value,
    Per_site_mutation_probability := per_site_probability,
    Cluster_P_value_Threshold := min_p_value }

/-- The body of the driver's per-chromosome loop (nbinom.py lines 215-264):
sort the chromosome's positions, partition, select, and turn each selected
cluster into a `Row`. -/
def clusterRowsForChromosome (df_sample : List (String × Int)) (per_site_probability : ℚ)
    (min_p_value : ℚ) (max_distance_between_mutations : Int) (c : String) :
    Option (List Row) :=
  match findPotentialClusteredMutations (chromosomePositions df_sample c)
      max_distance_between_mutations with
  | none => none
  | some potential_clusters =>
    some ((find_largest_significant_clusters potential_clusters per_site_probability
        min_p_value).map (rowOfCluster c per_site_probability min_p_value))

/-- The driver's chromosome loop (nbinom.py lines 212-264), accumulating
`df_clusters` by concatenation and skipping the mitochondrial identifier. -/
def findSampleClustersGo (df_sample : List (String × Int)) (per_site_probability : ℚ)
    (min_p_value : ℚ) (max_distance_between_mutations : Int) :
    List String → List Row → Option (List Row)
  | [], table => some table
  | c :: cs, table =>
    if c = mitoChromosome then
      findSampleClustersGo df_sample per_site_probability min_p_value
        max_distance_between_mutations cs table
    else
      match clusterRowsForChromosome df_sample per_site_probability min_p_value
          max_distance_between_mutations c with
      | none => none
      | some rows =>
        findSampleClustersGo df_sample per_site_probability min_p_value
          max_distance_between_mutations cs (table ++ rows)

/-- `findSampleClusters` (nbinom.py lines 178-266). -/
def findSampleClusters (df_sample : List (String × Int)) (per_site_probability : ℚ)
    (min_p_value : ℚ) (max_distance_between_mutations : Int) : Option (List Row) :=
  findSampleClustersGo df_sample per_site_probability min_p_value
    max_distance_between_mutations (uniqueFirst (df_sample.map Prod.fst)) []

/-- `analyzeSampleForMutationClusters` (nbinom.py lines 268-301):
`per_site_probability = len(df_mutations)/genome_size`, run the driver, keep
rows with `Mutations >= min_cluster_mutations` (`reset_index` is the identity
on the list embedding, whose index is the position). -/
def analyzeSampleForMutationClusters (df_mutations : List (String × Int)) (genome_size : Int)
    (min_p_value : ℚ) (max_distance_between_mutations : Int) (min_cluster_mutations : Int) :
    Option (List Row) :=
  let per_site_probability : ℚ := (df_mutations.length : ℚ) / (genome_size : ℚ)
  match findSampleClusters df_mutations per_site_probability min_p_value
      max_distance_between_mutations with
  | none => none
  | some df_clusters =>
    some (df_clusters.filter fun r => decide (min_cluster_mutations ≤ (r.Mutations : Int)))

/-!
### The `functools.cache` memoization of `findClusterProbability`

The Python source decorates `findClusterProbability` with `@cache`, so each
call first consults a process-wide table keyed by the argument triple and
otherwise computes and stores the value.  The cache is modelled explicitly as
an association list threaded through the pipeline; `CacheWF` says every entry
holds the value the uncached function returns (which is the invariant
`functools.cache` maintains, since it only stores actual results).
-/

abbrev ProbCache := List ((Int × ℕ × ℚ) × ℚ)

/-- A cache state is well formed when every stored value is the value of the
memoized function at the stored key. -/
def CacheWF (cache : ProbCache) : Prop :=
  ∀ kv ∈ cache, kv.2 = findClusterProbability kv.1.1 kv.1.2.1 kv.1.2.2

/-- `findClusterProbability` with its `@cache` decorator made explicit: look
the triple up, otherwise compute and store. -/
def findClusterProbabilityCached (cache : ProbCache) (cluster_length : Int)
    (number_of_mutations : ℕ) (per_bp_mut_probability : ℚ) : ℚ × ProbCache :=
  match cache.find?
      (fun kv => decide (kv.1 = (cluster_length, number_of_mutations, per_bp_mut_probability))) with
  | some kv => (kv.2, cache)
  | none =>
    (findClusterProbability cluster_length number_of_mutations per_bp_mut_probability,
     ((cluster_length, number_of_mutations, per_bp_mut_probability),
       findClusterProbability cluster_length number_of_mutations per_bp_mut_probability) :: cache)

/-- The pair loop of `computeClusterSignificanceOfAllMutationPairs` with the
cache threaded through its probability-model calls. -/
def computePairsCached (l : List Int) (rate : ℚ) :
    List (Int × Int) → ProbCache → List ClusterCandidate × ProbCache
  | [], cache => ([], cache)
  | pr :: prs, cache =>
    let cluster_length := pr.2 - pr.1
    let number_of_mutations :=
      (l.filter fun x => decide (pr.1 ≤ x) && decide (x ≤ pr.2)).length
    let rc := findClusterProbabilityCached cache cluster_length number_of_mutations rate
    let rest := computePairsCached l rate prs rc.2
    ({ start := pr.1, endPos := pr.2, mutations := number_of_mutations, p_value := rc.1 }
        :: rest.1,
     rest.2)

/-- `computeClusterSignificanceOfAllMutationPairs` with the explicit cache. -/
def computeClusterSignificanceOfAllMutationPairsCached (l : List Int) (rate : ℚ)
    (cache : ProbCache) : List ClusterCandidate × ProbCache :=
  computePairsCached l rate (possiblePairs l) cache

/-- `find_largest_significant_clusters` with the explicit cache. -/
def find_largest_significant_clustersCached (rate min_p_value : ℚ) :
    List (List Int) → ProbCache → List ClusterCandidate × ProbCache
  | [], cache => ([], cache)
  | run :: runs, cache =>
    let sc := computeClusterSignificanceOfAllMutationPairsCached run rate cache
    let rest := find_largest_significant_clustersCached rate min_p_value runs sc.2
    (match pickLongest sc.1 min_p_value with
     | none => rest.1
     | some c => c :: rest.1,
     rest.2)

/-- The driver's per-chromosome body with the explicit cache. -/
def clusterRowsForChromosomeCached (df_sample : List (String × Int))
    (per_site_probability min_p_value : ℚ) (max_distance_between_mutations : Int)
    (c : String) (cache : ProbCache) : Option (List Row) × ProbCache :=
  match findPotentialClusteredMutations (chromosomePositions df_sample c)
      max_distance_between_mutations with
  | none => (none, cache)
  | some potential_clusters =>
    let sel := find_largest_significant_clustersCached per_site_probability min_p_value
      potential_clusters cache
    (some (sel.1.map (rowOfCluster c per_site_probability min_p_value)), sel.2)

/-- The driver's chromosome loop with the explicit cache. -/
def findSampleClustersGoCached (df_sample : List (String × Int))
    (per_site_probability min_p_value : ℚ) (max_distance_between_mutations : Int) :
    List String → List Row → ProbCache → Option (List Row) × ProbCache
  | [], table, cache => (some table, cache)
  | c :: cs, table, cache =>
    if c = mitoChromosome then
      findSampleClustersGoCached df_sample per_site_probability min_p_value
        max_distance_between_mutations cs table cache
    else
      let rc := clusterRowsForChromosomeCached df_sample per_site_probability min_p_value
        max_distance_between_mutations c cache
      match rc.1 with
      | none => (none, rc.2)
      | some rows =>
        findSampleClustersGoCached df_sample per_site_probability min_p_value
          max_distance_between_mutations cs (table ++ rows) rc.2

/-- `findSampleClusters` with the explicit probability-model cache. -/
def findSampleClustersCached (df_sample : List (String × Int))
    (per_site_probability min_p_value : ℚ) (max_distance_between_mutations : Int)
    (cache : ProbCache) : Option (List Row) × ProbCache :=
  findSampleClustersGoCached df_sample per_site_probability min_p_value
    max_distance_between_mutations (uniqueFirst (df_sample.map Prod.fst)) [] cache

/-- `analyzeSampleForMutationClusters` with the explicit cache. -/
def analyzeSampleForMutationClustersCached (df_mutations : List (String × Int))
    (genome_size : Int) (min_p_value : ℚ) (max_distance_between_mutations : Int)
    (min_cluster_mutations : Int) (cache : ProbCache) : Option (List Row) × ProbCache :=
  let per_site_probability : ℚ := (df_mutations.length : ℚ) / (genome_size : ℚ)
  let rc := findSampleClustersCached df_mutations per_site_probability min_p_value
    max_distance_between_mutations cache
  match rc.1 with
  | none => (none, rc.2)
  | some df_clusters =>
    (some (df_clusters.filter fun r => decide (min_cluster_mutations ≤ (r.Mutations : Int))),
     rc.2)

/-! ### Probability model: bounds and monotonicity -/

lemma nbinomCdfAux_zero_mutations (p : ℚ) : ∀ k, nbinomCdfAux 0 p k = 1
  | 0 => by simp [nbinomCdfAux]
  | k + 1 => by
    have h : Nat.choose (k + 0) (k + 1) = 0 := Nat.choose_eq_zero_of_lt (by omega)
    simp [nbinomCdfAux, h, nbinomCdfAux_zero_mutations p k]

lemma nbinomCdfAux_nonneg {p : ℚ} (hp0 : 0 ≤ p) (hp1 : p ≤ 1) (n : ℕ) :
    ∀ k, 0 ≤ nbinomCdfAux n p k
  | 0 => pow_nonneg hp0 n
  | k + 1 => by
    have h1 : (0:ℚ) ≤ 1 - p := by linarith
    have h2 : (0:ℚ) ≤ (Nat.choose (k + n) (k + 1) : ℚ) * p ^ n * (1 - p) ^ (k + 1) := by
      have := pow_nonneg hp0 n
      have := pow_nonneg h1 (k + 1)
      positivity
    have := nbinomCdfAux_nonneg hp0 hp1 n k
    simp only [nbinomCdfAux]
    linarith

lemma nbinomCdfAux_rec (p : ℚ) (n : ℕ) :
    ∀ k, nbinomCdfAux (n + 1) p (k + 1) =
      p * nbinomCdfAux n p (k + 1) + (1 - p) * nbinomCdfAux (n + 1) p k
  | 0 => by
    simp only [nbinomCdfAux, Nat.zero_add, Nat.choose_one_right]
    push_cast
    ring
  | k + 1 => by
    have ih := nbinomCdfAux_rec p n k
    have pascal : ((k + n + 2).choose (k + 2) : ℚ) =
        ((k + n + 1).choose (k + 1) : ℚ) + ((k + n + 1).choose (k + 2) : ℚ) := by
      have h : (k + n + 2).choose (k + 2) =
          (k + n + 1).choose (k + 1) + (k + n + 1).choose (k + 2) :=
        Nat.choose_succ_succ (k + n + 1) (k + 1)
      exact_mod_cast congrArg (Nat.cast : ℕ → ℚ) h
    simp only [nbinomCdfAux] at ih ⊢
    simp only [show k + 1 + (n + 1) = k + n + 2 from by omega,
      show k + 1 + 1 = k + 2 from rfl, show k + (n + 1) = k + n + 1 from by omega,
      show k + 1 + n = k + n + 1 from by omega] at ih ⊢
    linear_combination ih + (p ^ (n + 1) * (1 - p) ^ (k + 2)) * pascal

lemma nbinomCdfAux_le_one {p : ℚ} (hp0 : 0 ≤ p) (hp1 : p ≤ 1) :
    ∀ n k, nbinomCdfAux n p k ≤ 1 := by
  intro n
  induction n with
  | zero => intro k; rw [nbinomCdfAux_zero_mutations]
  | succ n ihn =>
    intro k
    induction k with
    | zero => exact pow_le_one₀ hp0 hp1
    | succ k ihk =>
      have h1 := ihn (k + 1)
      have h2 := nbinomCdfAux_nonneg hp0 hp1 n (k + 1)
      have h3 := nbinomCdfAux_nonneg hp0 hp1 (n + 1) k
      rw [nbinomCdfAux_rec]
      nlinarith

lemma nbinomCdfAux_mono {p : ℚ} (hp0 : 0 ≤ p) (hp1 : p ≤ 1) (n : ℕ) {k1 k2 : ℕ}
    (h : k1 ≤ k2) : nbinomCdfAux n p k1 ≤ nbinomCdfAux n p k2 := by
  induction k2, h using Nat.le_induction with
  | base => exact le_refl _
  | succ k2 hk ih =>
    refine le_trans ih ?_
    have h1 : (0:ℚ) ≤ 1 - p := by linarith
    have h2 : (0:ℚ) ≤ (Nat.choose (k2 + n) (k2 + 1) : ℚ) * p ^ n * (1 - p) ^ (k2 + 1) := by
      have := pow_nonneg hp0 n
      have := pow_nonneg h1 (k2 + 1)
      positivity
    simp only [nbinomCdfAux]
    linarith

lemma findClusterProbability_nonneg {p : ℚ} (hp0 : 0 ≤ p) (hp1 : p ≤ 1) (s : Int) (n : ℕ) :
    0 ≤ findClusterProbability s n p := by
  unfold findClusterProbability
  split
  · exact le_refl 0
  · exact nbinomCdfAux_nonneg hp0 hp1 n _

lemma findClusterProbability_le_one {p : ℚ} (hp0 : 0 ≤ p) (hp1 : p ≤ 1) (s : Int) (n : ℕ) :
    findClusterProbability s n p ≤ 1 := by
  unfold findClusterProbability
  split
  · exact zero_le_one
  · exact nbinomCdfAux_le_one hp0 hp1 n _

lemma findClusterProbability_mono {p : ℚ} (hp0 : 0 ≤ p) (hp1 : p ≤ 1) (n : ℕ) {s1 s2 : Int}
    (h : s1 ≤ s2) : findClusterProbability s1 n p ≤ findClusterProbability s2 n p := by
  unfold findClusterProbability
  by_cases h1 : s1 < 0
  · simp only [h1, if_true]
    split
    · exact le_refl 0
    · exact nbinomCdfAux_nonneg hp0 hp1 n _
  · have h2 : ¬ s2 < 0 := by omega
    simp only [h1, h2, if_false]
    exact nbinomCdfAux_mono hp0 hp1 n (by omega)

/-- C5: for every fixed positive mutation count and per-site probability in
(0,1], `findClusterProbability` is monotonically non-decreasing in the span
length, and every returned value lies in [0,1]. -/
theorem C5_probability_monotone_and_unit_range (s1 s2 : Int) (n : ℕ) (p : ℚ)
    (hn : 0 < n) (hp0 : 0 < p) (hp1 : p ≤ 1) (hs : s1 ≤ s2) :
    findClusterProbability s1 n p ≤ findClusterProbability s2 n p ∧
    0 ≤ findClusterProbability s1 n p ∧ findClusterProbability s1 n p ≤ 1 :=
  ⟨findClusterProbability_mono (le_of_lt hp0) hp1 n hs,
   findClusterProbability_nonneg (le_of_lt hp0) hp1 s1 n,
   findClusterProbability_le_one (le_of_lt hp0) hp1 s1 n⟩

/-- C5 witness: the theorem applied at span lengths 0 ≤ 3, mutation count 2,
per-site probability 1. -/
theorem C5_probability_monotone_and_unit_range_witness :
    findClusterProbability 0 2 1 ≤ findClusterProbability 3 2 1 ∧
    0 ≤ findClusterProbability 0 2 1 ∧ findClusterProbability 0 2 1 ≤ 1 :=
  C5_probability_monotone_and_unit_range 0 3 2 1 (by decide) (by decide) (by decide) (by decide)

/-! ### Partitioner: structural lemmas about `findPotentialClusteredMutations` -/

lemma mem_closeRun {acc : List (List Int)} {cur r : List Int}
    (h : r ∈ if 2 ≤ cur.length then acc ++ [cur] else acc) :
    r ∈ acc ∨ (2 ≤ cur.length ∧ r = cur) := by
  split at h
  · rcases List.mem_append.1 h with h' | h'
    · exact Or.inl h'
    · exact Or.inr ⟨by assumption, List.mem_singleton.1 h'⟩
  · exact Or.inl h

lemma chain'_closeRun {R : List Int → List Int → Prop} {acc : List (List Int)} {cur : List Int}
    (hacc : List.Chain' R acc) (h : ∀ lastRun ∈ acc.getLast?, R lastRun cur) :
    List.Chain' R (if 2 ≤ cur.length then acc ++ [cur] else acc) := by
  split
  · exact List.chain'_append.2 ⟨hacc, List.chain'_singleton cur, by
      intro a ha y hy
      rw [List.head?_cons, Option.mem_some_iff] at hy
      subst hy
      exact h a ha⟩
  · exact hacc

lemma getLast?_closeRun {acc : List (List Int)} {cur : List Int} :
    (if 2 ≤ cur.length then acc ++ [cur] else acc) = acc ∨
    (2 ≤ cur.length ∧
      (if 2 ≤ cur.length then acc ++ [cur] else acc) = acc ++ [cur]) := by
  split
  · exact Or.inr ⟨by assumption, rfl⟩
  · exact Or.inl rfl

/-- Every run emitted by the partitioner loop satisfies the adjacent-gap bound,
provided the run under construction does. -/
lemma findPotentialClusteredMutationsGo_gap (maxd : Int) :
    ∀ (rest : List Int) (acc : List (List Int)) (cur : List Int) (prev : Int),
      (∀ r ∈ acc, r.Chain' (fun a b => b - a ≤ maxd)) →
      cur.Chain' (fun a b => b - a ≤ maxd) →
      cur.getLast? = some prev →
      ∀ r ∈ findPotentialClusteredMutationsGo maxd acc cur prev rest,
        r.Chain' (fun a b => b - a ≤ maxd)
  | [], acc, cur, prev => by
    intro hacc hcur _ r hr
    simp only [findPotentialClusteredMutationsGo] at hr
    rcases mem_closeRun hr with h | ⟨_, rfl⟩
    · exact hacc r h
    · exact hcur
  | x :: xs, acc, cur, prev => by
    intro hacc hcur hlast r hr
    simp only [findPotentialClusteredMutationsGo] at hr
    split at hr
    case isTrue hle =>
      refine findPotentialClusteredMutationsGo_gap maxd xs acc (cur ++ [x]) x hacc ?_
        (List.getLast?_concat cur) r hr
      refine List.chain'_append.2 ⟨hcur, List.chain'_singleton x, ?_⟩
      intro a ha y hy
      rw [List.head?_cons, Option.mem_some_iff] at hy
      subst hy
      rw [hlast, Option.mem_some_iff] at ha
      subst ha
      exact hle
    case isFalse hgt =>
      refine findPotentialClusteredMutationsGo_gap maxd xs _ [x] x ?_
        (List.chain'_singleton x) (List.getLast?_singleton x) r hr
      intro r' hr'
      rcases mem_closeRun hr' with h | ⟨_, rfl⟩
      · exact hacc r' h
      · exact hcur

/-- Every run emitted by the partitioner loop has at least two elements. -/
lemma findPotentialClusteredMutationsGo_length (maxd : Int) :
    ∀ (rest : List Int) (acc : List (List Int)) (cur : List Int) (prev : Int),
      (∀ r ∈ acc, 2 ≤ r.length) →
      ∀ r ∈ findPotentialClusteredMutationsGo maxd acc cur prev rest, 2 ≤ r.length
  | [], acc, cur, prev => by
    intro hacc r hr
    simp only [findPotentialClusteredMutationsGo] at hr
    rcases mem_closeRun hr with h | ⟨h2, rfl⟩
    · exact hacc r h
    · exact h2
  | x :: xs, acc, cur, prev => by
    intro hacc r hr
    simp only [findPotentialClusteredMutationsGo] at hr
    split at hr
    · exact findPotentialClusteredMutationsGo_length maxd xs acc (cur ++ [x]) x hacc r hr
    · refine findPotentialClusteredMutationsGo_length maxd xs _ [x] x ?_ r hr
      intro r' hr'
      rcases mem_closeRun hr' with h | ⟨h2, rfl⟩
      · exact hacc r' h
      · exact h2

/-- Any relation holding along the whole remaining input is inherited by every
emitted run (runs are blocks of consecutive input elements). -/
lemma findPotentialClusteredMutationsGo_chainR (maxd : Int) (R : Int → Int → Prop) :
    ∀ (rest : List Int) (acc : List (List Int)) (cur : List Int) (prev : Int),
      (∀ r ∈ acc, r.Chain' R) →
      cur.Chain' R →
      cur.getLast? = some prev →
      List.Chain' R (prev :: rest) →
      ∀ r ∈ findPotentialClusteredMutationsGo maxd acc cur prev rest, r.Chain' R
  | [], acc, cur, prev => by
    intro hacc hcur _ _ r hr
    simp only [findPotentialClusteredMutationsGo] at hr
    rcases mem_closeRun hr with h | ⟨_, rfl⟩
    · exact hacc r h
    · exact hcur
  | x :: xs, acc, cur, prev => by
    intro hacc hcur hlast hchain r hr
    have hpx : R prev x := (List.chain'_cons'.1 hchain).1 x rfl
    have htail : List.Chain' R (x :: xs) := (List.chain'_cons'.1 hchain).2
    simp only [findPotentialClusteredMutationsGo] at hr
    split at hr
    case isTrue hle =>
      refine findPotentialClusteredMutationsGo_chainR maxd R xs acc (cur ++ [x]) x hacc ?_
        (List.getLast?_concat cur) htail r hr
      refine List.chain'_append.2 ⟨hcur, List.chain'_singleton x, ?_⟩
      intro a ha y hy
      rw [List.head?_cons, Option.mem_some_iff] at hy
      subst hy
      rw [hlast, Option.mem_some_iff] at ha
      subst ha
      exact hpx
    case isFalse hgt =>
      refine findPotentialClusteredMutationsGo_chainR maxd R xs _ [x] x ?_
        (List.chain'_singleton x) (List.getLast?_singleton x) htail r hr
      intro r' hr'
      rcases mem_closeRun hr' with h | ⟨_, rfl⟩
      · exact hacc r' h
      · exact hcur

/-- For ascending input, adjacent emitted runs are separated by more than the
distance threshold: the head of the later run exceeds the last element of the
earlier run by more than `maxd`. -/
lemma findPotentialClusteredMutationsGo_sep (maxd : Int) :
    ∀ (rest : List Int) (acc : List (List Int)) (cur : List Int) (prev : Int),
      List.Chain' (· ≤ ·) (prev :: rest) →
      cur.getLast? = some prev →
      (∀ h ∈ cur.head?, h ≤ prev) →
      List.Chain' (fun r1 r2 => ∀ a ∈ r1.getLast?, ∀ b ∈ r2.head?, maxd < b - a) acc →
      (∀ lastRun ∈ acc.getLast?, ∀ z ∈ lastRun.getLast?, ∀ h ∈ cur.head?, maxd < h - z) →
      List.Chain' (fun r1 r2 => ∀ a ∈ r1.getLast?, ∀ b ∈ r2.head?, maxd < b - a)
        (findPotentialClusteredMutationsGo maxd acc cur prev rest)
  | [], acc, cur, prev => by
    intro _ _ _ hacc hI2
    simp only [findPotentialClusteredMutationsGo]
    exact chain'_closeRun hacc fun lastRun hl a ha b hb => hI2 lastRun hl a ha b hb
  | x :: xs, acc, cur, prev => by
    intro hchain hlast hhead hacc hI2
    have hne : cur ≠ [] := by
      intro h
      rw [h] at hlast
      simp at hlast
    obtain ⟨c0, hc0⟩ : ∃ c0, cur.head? = some c0 := by
      cases cur with
      | nil => exact absurd rfl hne
      | cons a t => exact ⟨a, rfl⟩
    have hc0prev : c0 ≤ prev := hhead c0 hc0
    have hpx : prev ≤ x := (List.chain'_cons'.1 hchain).1 x rfl
    have htail : List.Chain' (· ≤ ·) (x :: xs) := (List.chain'_cons'.1 hchain).2
    simp only [findPotentialClusteredMutationsGo]
    split
    case isTrue hle =>
      have hh : (cur ++ [x]).head? = some c0 := by
        rw [List.head?_append, hc0]
        rfl
      refine findPotentialClusteredMutationsGo_sep maxd xs acc (cur ++ [x]) x htail
        (List.getLast?_concat cur) ?_ hacc ?_
      · intro h hh'
        rw [hh, Option.mem_some_iff] at hh'
        subst hh'
        omega
      · intro lastRun hl z hz h hh'
        rw [hh, Option.mem_some_iff] at hh'
        subst hh'
        exact hI2 lastRun hl z hz c0 hc0
    case isFalse hgt =>
      refine findPotentialClusteredMutationsGo_sep maxd xs _ [x] x htail
        (List.getLast?_singleton x) (by intro h hh'; rw [List.head?_cons, Option.mem_some_iff] at hh'; omega) ?_ ?_
      · exact chain'_closeRun hacc fun lastRun hl a ha b hb => hI2 lastRun hl a ha b hb
      · intro lastRun hl z hz h hh'
        rw [List.head?_cons, Option.mem_some_iff] at hh'
        subst hh'
        rcases @getLast?_closeRun acc cur with heq | ⟨h2, heq⟩
        · rw [heq] at hl
          have := hI2 lastRun hl z hz c0 hc0
          omega
        · rw [heq, List.getLast?_concat, Option.mem_some_iff] at hl
          subst hl
          rw [hlast, Option.mem_some_iff] at hz
          subst hz
          omega

/-- When every adjacent gap in the remaining input is within the threshold,
the loop closes exactly one run holding everything (kept only if long enough). -/
lemma findPotentialClusteredMutationsGo_allgap (maxd : Int) :
    ∀ (rest : List Int) (acc : List (List Int)) (cur : List Int) (prev : Int),
      List.Chain' (fun a b => b - a ≤ maxd) (prev :: rest) →
      findPotentialClusteredMutationsGo maxd acc cur prev rest =
        if 2 ≤ (cur ++ rest).length then acc ++ [cur ++ rest] else acc
  | [], acc, cur, prev => by
    intro _
    simp [findPotentialClusteredMutationsGo]
  | x :: xs, acc, cur, prev => by
    intro hchain
    have hpx : x - prev ≤ maxd := (List.chain'_cons'.1 hchain).1 x rfl
    have htail := (List.chain'_cons'.1 hchain).2
    simp only [findPotentialClusteredMutationsGo]
    rw [if_pos hpx, findPotentialClusteredMutationsGo_allgap maxd xs acc (cur ++ [x]) x htail]
    simp

/-! ### Scorer: the pair enumeration -/

lemma possiblePairs_eq_map_pairIndices (l : List Int) :
    possiblePairs l = (pairIndices l.length).map fun ij => (l.getD ij.1 0, l.getD ij.2 0) := by
  unfold possiblePairs pairIndices
  rw [List.map_flatMap]
  simp only [List.map_map, Function.comp_def]

lemma mem_pairIndices {n : ℕ} {ij : ℕ × ℕ} : ij ∈ pairIndices n ↔ ij.1 < ij.2 ∧ ij.2 < n := by
  obtain ⟨i, j⟩ := ij
  simp only [pairIndices, List.mem_flatMap, List.mem_map, List.mem_range, List.mem_range',
    Prod.mk.injEq]
  constructor
  · rintro ⟨i', hi', a, ⟨k, hk, rfl⟩, h1, h2⟩
    omega
  · rintro ⟨h1, h2⟩
    exact ⟨i, by omega, j, ⟨j - (i + 1), by omega, by omega⟩, rfl, rfl⟩

lemma pairwise_pairIndices_lex (n : ℕ) :
    (pairIndices n).Pairwise (fun a b => a.1 < b.1 ∨ (a.1 = b.1 ∧ a.2 < b.2)) := by
  unfold pairIndices
  rw [List.flatMap_def, List.pairwise_flatten]
  constructor
  · intro l' hl'
    rw [List.mem_map] at hl'
    obtain ⟨i, _, rfl⟩ := hl'
    rw [List.pairwise_map]
    exact (List.pairwise_lt_range' _ _).imp fun hab => Or.inr ⟨rfl, hab⟩
  · rw [List.pairwise_map]
    refine (List.pairwise_lt_range n).imp ?_
    intro i1 i2 h12 x hx y hy
    rw [List.mem_map] at hx hy
    obtain ⟨j1, _, rfl⟩ := hx
    obtain ⟨j2, _, rfl⟩ := hy
    exact Or.inl h12

lemma sum_range_sub (n : ℕ) :
    (((List.range n).map fun i => n - (i + 1)).sum) * 2 = n * (n - 1) := by
  induction n with
  | zero => rfl
  | succ n ih =>
    rw [List.range_succ_eq_map, List.map_cons, List.map_map, List.sum_cons]
    have he : (List.map ((fun i => n + 1 - (i + 1)) ∘ Nat.succ) (List.range n)).sum
        = (List.map (fun i => n - (i + 1)) (List.range n)).sum := by
      congr 1
      apply List.map_congr_left
      intro a _
      show n + 1 - (a + 1 + 1) = n - (a + 1)
      omega
    rw [he]
    cases n with
    | zero => rfl
    | succ m =>
      have hsub : m + 1 + 1 - (0 + 1) = m + 1 := by omega
      rw [hsub]
      calc (m + 1 + (List.map (fun i => m + 1 - (i + 1)) (List.range (m + 1))).sum) * 2
          = (List.map (fun i => m + 1 - (i + 1)) (List.range (m + 1))).sum * 2
            + (m + 1) * 2 := by ring
        _ = (m + 1) * (m + 1 - 1) + (m + 1) * 2 := by rw [ih]
        _ = (m + 1 + 1) * (m + 1 + 1 - 1) := by simp; ring

lemma length_pairIndices (n : ℕ) : (pairIndices n).length * 2 = n * (n - 1) := by
  unfold pairIndices
  rw [List.length_flatMap]
  have he : List.map (List.length ∘ fun i => (List.range' (i + 1) (n - (i + 1))).map
      fun j => ((i, j) : ℕ × ℕ)) (List.range n) = List.map (fun i => n - (i + 1)) (List.range n) := by
    apply List.map_congr_left
    intro i _
    show ((List.range' (i + 1) (n - (i + 1))).map fun j => ((i, j) : ℕ × ℕ)).length = n - (i + 1)
    rw [List.length_map, List.length_range']
  rw [he, sum_range_sub]

lemma nodup_pairIndices (n : ℕ) : (pairIndices n).Nodup :=
  (pairwise_pairIndices_lex n).imp fun hab => by
    rcases hab with h | ⟨h1, h2⟩
    · intro he; rw [he] at h; omega
    · intro he; rw [he] at h2; omega

lemma sorted_getD_le {l : List Int} (h : l.Chain' (· ≤ ·)) {i j : ℕ} (hij : i ≤ j)
    (hj : j < l.length) : l.getD i 0 ≤ l.getD j 0 := by
  have hi : i < l.length := by omega
  rw [List.getD_eq_getElem l 0 hi, List.getD_eq_getElem l 0 hj]
  rcases Nat.lt_or_ge i j with hlt | hge
  · have hp := List.chain'_iff_pairwise.1 h
    have := List.pairwise_iff_get.1 hp ⟨i, hi⟩ ⟨j, hj⟩ hlt
    simpa using this
  · have : i = j := by omega
    subst this
    exact le_refl _

lemma sorted_getD_lt {l : List Int} (h : l.Chain' (· < ·)) {i j : ℕ} (hij : i < j)
    (hj : j < l.length) : l.getD i 0 < l.getD j 0 := by
  have hi : i < l.length := by omega
  rw [List.getD_eq_getElem l 0 hi, List.getD_eq_getElem l 0 hj]
  have hp := List.chain'_iff_pairwise.1 h
  have := List.pairwise_iff_get.1 hp ⟨i, hi⟩ ⟨j, hj⟩ hij
  simpa using this

lemma two_le_filter_length {P : Int → Bool} {l : List Int} {i j : ℕ}
    (hij : i < j) (hj : j < l.length)
    (hPi : P (l.getD i 0) = true) (hPj : P (l.getD j 0) = true) :
    2 ≤ (l.filter P).length := by
  obtain ⟨d, rfl⟩ : ∃ d, j = i + 1 + d := ⟨j - (i + 1), by omega⟩
  have hi : i < l.length := by omega
  have hmem1 : l.getD i 0 ∈ l.take (i + 1) := by
    have hlen : i < (l.take (i + 1)).length := by
      rw [List.length_take]
      omega
    rw [List.getD_eq_getElem l 0 hi, ← List.getElem_take (L := l) (h := hlen)]
    exact List.getElem_mem hlen
  have hmem2 : l.getD (i + 1 + d) 0 ∈ l.drop (i + 1) := by
    have hlen : d < (l.drop (i + 1)).length := by
      rw [List.length_drop]
      omega
    rw [List.getD_eq_getElem l 0 hj, ← List.getElem_drop (L := l) (h := hlen)]
    exact List.getElem_mem hlen
  have h1 : 0 < (List.filter P (l.take (i + 1))).length :=
    List.length_pos.2 (List.ne_nil_of_mem (List.mem_filter.2 ⟨hmem1, hPi⟩))
  have h2 : 0 < (List.filter P (l.drop (i + 1))).length :=
    List.length_pos.2 (List.ne_nil_of_mem (List.mem_filter.2 ⟨hmem2, hPj⟩))
  have he : (l.filter P).length
      = (List.filter P (l.take (i + 1))).length + (List.filter P (l.drop (i + 1))).length := by
    rw [← List.length_append, ← List.filter_append, List.take_append_drop]
  omega

lemma computeClusterSignificanceOfAllMutationPairs_eq (l : List Int) (rate : ℚ) :
    computeClusterSignificanceOfAllMutationPairs l rate =
      (pairIndices l.length).map fun ij =>
        { start := l.getD ij.1 0, endPos := l.getD ij.2 0,
          mutations := (l.filter fun x =>
            decide (l.getD ij.1 0 ≤ x) && decide (x ≤ l.getD ij.2 0)).length,
          p_value := findClusterProbability (l.getD ij.2 0 - l.getD ij.1 0)
            ((l.filter fun x =>
              decide (l.getD ij.1 0 ≤ x) && decide (x ≤ l.getD ij.2 0)).length) rate } := by
  unfold computeClusterSignificanceOfAllMutationPairs
  rw [possiblePairs_eq_map_pairIndices, List.map_map]
  rfl

/-! ### Partitioner: top-level facts -/

lemma findPotentialClusteredMutations_gap {l : List Int} {maxd : Int} {runs : List (List Int)}
    (h : findPotentialClusteredMutations l maxd = some runs) :
    ∀ r ∈ runs, r.Chain' (fun a b => b - a ≤ maxd) := by
  cases l with
  | nil => simp [findPotentialClusteredMutations] at h
  | cons a t =>
    simp only [findPotentialClusteredMutations, Option.some.injEq] at h
    subst h
    exact findPotentialClusteredMutationsGo_gap maxd t [] [a] a (by simp)
      (List.chain'_singleton a) (List.getLast?_singleton a)

lemma findPotentialClusteredMutations_length {l : List Int} {maxd : Int} {runs : List (List Int)}
    (h : findPotentialClusteredMutations l maxd = some runs) :
    ∀ r ∈ runs, 2 ≤ r.length := by
  cases l with
  | nil => simp [findPotentialClusteredMutations] at h
  | cons a t =>
    simp only [findPotentialClusteredMutations, Option.some.injEq] at h
    subst h
    exact findPotentialClusteredMutationsGo_length maxd t [] [a] a (by simp)

lemma findPotentialClusteredMutations_chainR {R : Int → Int → Prop} {l : List Int} {maxd : Int}
    {runs : List (List Int)} (hl : l.Chain' R)
    (h : findPotentialClusteredMutations l maxd = some runs) :
    ∀ r ∈ runs, r.Chain' R := by
  cases l with
  | nil => simp [findPotentialClusteredMutations] at h
  | cons a t =>
    simp only [findPotentialClusteredMutations, Option.some.injEq] at h
    subst h
    exact findPotentialClusteredMutationsGo_chainR maxd R t [] [a] a (by simp)
      (List.chain'_singleton a) (List.getLast?_singleton a) hl

lemma findPotentialClusteredMutations_sep {l : List Int} {maxd : Int} {runs : List (List Int)}
    (hsorted : l.Chain' (· ≤ ·)) (h : findPotentialClusteredMutations l maxd = some runs) :
    runs.Chain' (fun r1 r2 => ∀ a ∈ r1.getLast?, ∀ b ∈ r2.head?, maxd < b - a) := by
  cases l with
  | nil => simp [findPotentialClusteredMutations] at h
  | cons a t =>
    simp only [findPotentialClusteredMutations, Option.some.injEq] at h
    subst h
    refine findPotentialClusteredMutationsGo_sep maxd t [] [a] a hsorted
      (List.getLast?_singleton a) ?_ List.chain'_nil (by simp)
    intro h hh
    rw [List.head?_cons, Option.mem_some_iff] at hh
    omega

/-- C2 counterexample: the claim asserts both that a singleton input yields no
runs and that an input whose adjacent gaps are all within the threshold yields
one run containing every position; at `[5]` with threshold 10 the gap
condition holds vacuously, yet the result is `[]`, not `[[5]]`. -/
theorem C2_counterexample_singleton_all_gaps :
    List.Chain' (fun a b => b - a ≤ (10:Int)) [(5:Int)] ∧
    findPotentialClusteredMutations [(5:Int)] 10 = some [] ∧
    some ([] : List (List Int)) ≠ some [[(5:Int)]] :=
  ⟨List.chain'_singleton 5, by decide, by decide⟩

/-- C2 (amended): for non-empty ascending input and threshold ≥ 0, adjacent
positions inside a returned run are within the threshold, every run has at
least two elements, adjacent runs are separated by more than the threshold at
the split point, a singleton input yields no runs, and — when the input has at
least two positions — uniformly small gaps yield exactly one run holding every
position. -/
theorem C2_partitioner_runs (l : List Int) (maxd : Int) (hne : l ≠ [])
    (hsorted : l.Chain' (· ≤ ·)) (hmd : 0 ≤ maxd) :
    ∃ runs, findPotentialClusteredMutations l maxd = some runs ∧
      (∀ r ∈ runs, r.Chain' (fun a b => b - a ≤ maxd)) ∧
      (∀ r ∈ runs, 2 ≤ r.length) ∧
      runs.Chain' (fun r1 r2 => ∀ a ∈ r1.getLast?, ∀ b ∈ r2.head?, maxd < b - a) ∧
      (l.length = 1 → runs = []) ∧
      (2 ≤ l.length → l.Chain' (fun a b => b - a ≤ maxd) → runs = [l]) := by
  cases l with
  | nil => exact absurd rfl hne
  | cons a t =>
    refine ⟨findPotentialClusteredMutationsGo maxd [] [a] a t, rfl, ?_, ?_, ?_, ?_, ?_⟩
    · exact findPotentialClusteredMutations_gap (l := a :: t) rfl
    · exact findPotentialClusteredMutations_length (l := a :: t) rfl
    · exact findPotentialClusteredMutations_sep (l := a :: t) hsorted rfl
    · intro hlen
      have ht : t = [] := by
        rw [List.length_cons] at hlen
        exact List.length_eq_zero.1 (by omega)
      subst ht
      simp [findPotentialClusteredMutationsGo]
    · intro hlen hgap
      rw [findPotentialClusteredMutationsGo_allgap maxd t [] [a] a hgap]
      rw [if_pos (by simpa using hlen)]
      simp

/-- C2 witness: the amended theorem applied to `[0, 5, 100]` with threshold
10, which splits into the single run `[0, 5]`. -/
theorem C2_partitioner_runs_witness :
    findPotentialClusteredMutations [(0:Int), 5, 100] 10 = some [[0, 5]] := by
  obtain ⟨runs, hruns, -⟩ := C2_partitioner_runs [(0:Int), 5, 100] 10 (by decide)
    (by norm_num [List.chain'_cons, List.chain'_singleton]) (by decide)
  calc findPotentialClusteredMutations [(0:Int), 5, 100] 10 = some runs := hruns
    _ = some [[0, 5]] := by rw [← hruns]; decide

/-- C3: for every (ascending) proximity run and rate, the scorer returns
exactly `n*(n-1)/2` candidates — one per index pair `(i, j)` with `i < j`,
enumerated with `i` increasing then `j` increasing — each carrying span
`position_j - position_i`, the count of run positions in the closed span
(which is at least 2), and the probability-model value; none is filtered. -/
theorem C3_scorer_enumeration (l : List Int) (rate : ℚ) (hsorted : l.Chain' (· ≤ ·)) :
    (computeClusterSignificanceOfAllMutationPairs l rate).length
      = l.length * (l.length - 1) / 2 ∧
    (computeClusterSignificanceOfAllMutationPairs l rate).length * 2
      = l.length * (l.length - 1) ∧
    computeClusterSignificanceOfAllMutationPairs l rate =
      (pairIndices l.length).map (fun ij =>
        { start := l.getD ij.1 0, endPos := l.getD ij.2 0,
          mutations := (l.filter fun x =>
            decide (l.getD ij.1 0 ≤ x) && decide (x ≤ l.getD ij.2 0)).length,
          p_value := findClusterProbability (l.getD ij.2 0 - l.getD ij.1 0)
            ((l.filter fun x =>
              decide (l.getD ij.1 0 ≤ x) && decide (x ≤ l.getD ij.2 0)).length) rate }) ∧
    (∀ ij : ℕ × ℕ, ij ∈ pairIndices l.length ↔ ij.1 < ij.2 ∧ ij.2 < l.length) ∧
    (pairIndices l.length).Pairwise (fun a b => a.1 < b.1 ∨ (a.1 = b.1 ∧ a.2 < b.2)) ∧
    ∀ c ∈ computeClusterSignificanceOfAllMutationPairs l rate, 2 ≤ c.mutations := by
  have hlen2 : (computeClusterSignificanceOfAllMutationPairs l rate).length * 2
      = l.length * (l.length - 1) := by
    rw [computeClusterSignificanceOfAllMutationPairs_eq, List.length_map]
    exact length_pairIndices l.length
  refine ⟨by omega, hlen2, computeClusterSignificanceOfAllMutationPairs_eq l rate,
    fun ij => mem_pairIndices, pairwise_pairIndices_lex l.length, ?_⟩
  intro c hc
  rw [computeClusterSignificanceOfAllMutationPairs_eq, List.mem_map] at hc
  obtain ⟨ij, hij, rfl⟩ := hc
  rw [mem_pairIndices] at hij
  have hle : l.getD ij.1 0 ≤ l.getD ij.2 0 := sorted_getD_le hsorted (by omega) hij.2
  refine two_le_filter_length hij.1 hij.2 ?_ ?_
  · simp only [Bool.and_eq_true, decide_eq_true_eq]
    exact ⟨le_refl _, hle⟩
  · simp only [Bool.and_eq_true, decide_eq_true_eq]
    exact ⟨hle, le_refl _⟩

/-- C3 witness: the theorem applied to the ascending run `[1, 2, 5]`. -/
theorem C3_scorer_enumeration_witness :
    (computeClusterSignificanceOfAllMutationPairs [(1:Int), 2, 5] 1).length = 3 ∧
    ∀ c ∈ computeClusterSignificanceOfAllMutationPairs [(1:Int), 2, 5] 1, 2 ≤ c.mutations := by
  have h := C3_scorer_enumeration [(1:Int), 2, 5] 1
    (by norm_num [List.chain'_cons, List.chain'_singleton])
  exact ⟨h.1, h.2.2.2.2.2⟩

/-! ### Selector: characterization of the fold -/

lemma pickLongestStep_not_pass {mp : ℚ} {x : ClusterCandidate} (hx : ¬ x.p_value < mp)
    (acc : Option ClusterCandidate) : pickLongestStep mp acc x = acc := by
  simp [pickLongestStep, hx]

lemma pickLongestStep_pass_none {mp : ℚ} {x : ClusterCandidate} (hx : x.p_value < mp) :
    pickLongestStep mp none x = some x := by
  simp [pickLongestStep, hx]

lemma pickLongestStep_pass_gt {mp : ℚ} {x b : ClusterCandidate} (hx : x.p_value < mp)
    (hgt : b.endPos - b.start < x.endPos - x.start) :
    pickLongestStep mp (some b) x = some x := by
  simp [pickLongestStep, hx, hgt]

lemma pickLongestStep_pass_le {mp : ℚ} {x b : ClusterCandidate} (hx : x.p_value < mp)
    (hle : x.endPos - x.start ≤ b.endPos - b.start) :
    pickLongestStep mp (some b) x = some b := by
  have : ¬ b.endPos - b.start < x.endPos - x.start := by omega
  simp [pickLongestStep, hx, this]

/-- Running the selection fold from an already-held candidate `b`: the result
holds the maximal span, and is either `b` itself or the first passing
candidate strictly exceeding everything before it. -/
lemma pickLongest_foldl_some (mp : ℚ) :
    ∀ (l : List ClusterCandidate) (b : ClusterCandidate), ∃ c,
      List.foldl (pickLongestStep mp) (some b) l = some c ∧
      b.endPos - b.start ≤ c.endPos - c.start ∧
      (∀ d ∈ l.filter (fun d => decide (d.p_value < mp)),
        d.endPos - d.start ≤ c.endPos - c.start) ∧
      (c = b ∨ (b.endPos - b.start < c.endPos - c.start ∧
        ∃ l1 l2, l.filter (fun d => decide (d.p_value < mp)) = l1 ++ c :: l2 ∧
          ∀ d ∈ l1, d.endPos - d.start < c.endPos - c.start))
  | [], b => ⟨b, rfl, le_refl _, by simp, Or.inl rfl⟩
  | x :: xs, b => by
    by_cases hx : x.p_value < mp
    · by_cases hgt : b.endPos - b.start < x.endPos - x.start
      · obtain ⟨c, hfold, hxle, hall, hor⟩ := pickLongest_foldl_some mp xs x
        refine ⟨c, ?_, by omega, ?_, ?_⟩
        · rw [List.foldl_cons, pickLongestStep_pass_gt hx hgt]
          exact hfold
        · intro d hd
          rw [List.filter_cons_of_pos (by simp [hx])] at hd
          rcases List.mem_cons.1 hd with rfl | hd
          · exact hxle
          · exact hall d hd
        · rcases hor with rfl | ⟨hlt, l1, l2, heq, hl1⟩
          · refine Or.inr ⟨hgt, [], xs.filter (fun d => decide (d.p_value < mp)), ?_, by simp⟩
            rw [List.filter_cons_of_pos (by simp [hx])]
            rfl
          · refine Or.inr ⟨by omega, x :: l1, l2, ?_, ?_⟩
            · rw [List.filter_cons_of_pos (by simp [hx]), heq]
              rfl
            · intro d hd
              rcases List.mem_cons.1 hd with rfl | hd
              · omega
              · exact hl1 d hd
      · obtain ⟨c, hfold, hble, hall, hor⟩ := pickLongest_foldl_some mp xs b
        refine ⟨c, ?_, hble, ?_, ?_⟩
        · rw [List.foldl_cons, pickLongestStep_pass_le hx (by omega)]
          exact hfold
        · intro d hd
          rw [List.filter_cons_of_pos (by simp [hx])] at hd
          rcases List.mem_cons.1 hd with rfl | hd
          · omega
          · exact hall d hd
        · rcases hor with rfl | ⟨hlt, l1, l2, heq, hl1⟩
          · exact Or.inl rfl
          · refine Or.inr ⟨hlt, x :: l1, l2, ?_, ?_⟩
            · rw [List.filter_cons_of_pos (by simp [hx]), heq]
              rfl
            · intro d hd
              rcases List.mem_cons.1 hd with rfl | hd
              · omega
              · exact hl1 d hd
    · obtain ⟨c, hfold, hble, hall, hor⟩ := pickLongest_foldl_some mp xs b
      refine ⟨c, ?_, hble, ?_, ?_⟩
      · rw [List.foldl_cons, pickLongestStep_not_pass hx]
        exact hfold
      · intro d hd
        rw [List.filter_cons_of_neg (by simp [hx])] at hd
        exact hall d hd
      · rcases hor with rfl | ⟨hlt, l1, l2, heq, hl1⟩
        · exact Or.inl rfl
        · refine Or.inr ⟨hlt, l1, l2, ?_, hl1⟩
          rw [List.filter_cons_of_neg (by simp [hx]), heq]

/-- The selection fold from `None`: it returns `none` exactly when no
candidate passes the threshold, and otherwise the first passing candidate of
maximal span. -/
lemma pickLongest_spec (mp : ℚ) :
    ∀ l : List ClusterCandidate,
      (pickLongest l mp = none ∧ l.filter (fun d => decide (d.p_value < mp)) = []) ∨
      (∃ c l1 l2, pickLongest l mp = some c ∧
        l.filter (fun d => decide (d.p_value < mp)) = l1 ++ c :: l2 ∧
        (∀ d ∈ l1, d.endPos - d.start < c.endPos - c.start) ∧
        (∀ d ∈ l.filter (fun d => decide (d.p_value < mp)),
          d.endPos - d.start ≤ c.endPos - c.start))
  | [] => Or.inl ⟨rfl, rfl⟩
  | x :: xs => by
    by_cases hx : x.p_value < mp
    · obtain ⟨c, hfold, hxle, hall, hor⟩ := pickLongest_foldl_some mp xs x
      refine Or.inr ⟨c, ?_⟩
      have hpick : pickLongest (x :: xs) mp = some c := by
        unfold pickLongest
        rw [List.foldl_cons, pickLongestStep_pass_none hx]
        exact hfold
      have hfc : (x :: xs).filter (fun d => decide (d.p_value < mp))
          = x :: xs.filter (fun d => decide (d.p_value < mp)) :=
        List.filter_cons_of_pos (by simp [hx])
      rcases hor with rfl | ⟨hlt, l1, l2, heq, hl1⟩
      · refine ⟨[], xs.filter (fun d => decide (d.p_value < mp)), hpick, by rw [hfc]; rfl,
          by simp, ?_⟩
        intro d hd
        rw [hfc] at hd
        rcases List.mem_cons.1 hd with rfl | hd
        · exact le_refl _
        · exact hall d hd
      · refine ⟨x :: l1, l2, hpick, by rw [hfc, heq]; rfl, ?_, ?_⟩
        · intro d hd
          rcases List.mem_cons.1 hd with rfl | hd
          · exact hlt
          · exact hl1 d hd
        · intro d hd
          rw [hfc] at hd
          rcases List.mem_cons.1 hd with rfl | hd
          · omega
          · exact hall d hd
    · have hfc : (x :: xs).filter (fun d => decide (d.p_value < mp))
          = xs.filter (fun d => decide (d.p_value < mp)) :=
        List.filter_cons_of_neg (by simp [hx])
      have hstep : pickLongest (x :: xs) mp = pickLongest xs mp := by
        unfold pickLongest
        rw [List.foldl_cons, pickLongestStep_not_pass hx]
      rcases pickLongest_spec mp xs with ⟨h1, h2⟩ | ⟨c, l1, l2, h1, h2, h3, h4⟩
      · exact Or.inl ⟨by rw [hstep, h1], by rw [hfc, h2]⟩
      · exact Or.inr ⟨c, l1, l2, by rw [hstep, h1], by rw [hfc, h2], h3, by rw [hfc]; exact h4⟩

/-- C1: the selector never returns a candidate whose p-value is ≥ the
threshold (the filter is strict); among passing candidates it returns one of
maximal span, the first in enumeration order on ties; and when no candidate
passes, nothing is returned — so `find_largest_significant_clusters` emits no
cluster for that run. -/
theorem C1_selector_longest_significant (cands : List ClusterCandidate) (run : List Int)
    (rate mp : ℚ) :
    (∀ c, pickLongest cands mp = some c →
      c ∈ cands ∧ c.p_value < mp ∧
      (∀ d ∈ cands, d.p_value < mp → d.endPos - d.start ≤ c.endPos - c.start) ∧
      ∃ l1 l2, cands.filter (fun d => decide (d.p_value < mp)) = l1 ++ c :: l2 ∧
        ∀ d ∈ l1, d.endPos - d.start < c.endPos - c.start) ∧
    (pickLongest cands mp = none ↔ ∀ c ∈ cands, ¬ c.p_value < mp) ∧
    find_largest_significant_clusters [run] rate mp
      = (pickLongest (computeClusterSignificanceOfAllMutationPairs run rate) mp).toList := by
  refine ⟨?_, ?_, ?_⟩
  · intro c hc
    rcases pickLongest_spec mp cands with ⟨h1, _⟩ | ⟨c', l1, l2, h1, h2, h3, h4⟩
    · rw [h1] at hc
      exact absurd hc (by simp)
    · have hc' : c = c' := by
        rw [h1] at hc
        exact (Option.some_inj.1 hc).symm
      subst hc'
      have hcmem : c ∈ cands.filter (fun d => decide (d.p_value < mp)) := by
        rw [h2]
        exact List.mem_append.2 (Or.inr (List.mem_cons_self _ _))
      rw [List.mem_filter] at hcmem
      refine ⟨hcmem.1, by simpa using hcmem.2, ?_, l1, l2, h2, h3⟩
      intro d hd hdp
      exact h4 d (List.mem_filter.2 ⟨hd, by simpa using hdp⟩)
  · rcases pickLongest_spec mp cands with ⟨h1, h2⟩ | ⟨c', l1, l2, h1, h2, h3, h4⟩
    · rw [h1]
      simp only [true_iff]
      intro c hc hcp
      have : c ∈ cands.filter (fun d => decide (d.p_value < mp)) :=
        List.mem_filter.2 ⟨hc, by simpa using hcp⟩
      rw [h2] at this
      exact absurd this (by simp)
    · rw [h1]
      have hcmem : c' ∈ cands.filter (fun d => decide (d.p_value < mp)) := by
        rw [h2]
        exact List.mem_append.2 (Or.inr (List.mem_cons_self _ _))
      rw [List.mem_filter] at hcmem
      constructor
      · intro h
        exact absurd h (by simp)
      · intro hall
        exact absurd (show c'.p_value < mp by simpa using hcmem.2) (hall c' hcmem.1)
  · unfold find_largest_significant_clusters
    rw [List.filterMap_cons]
    cases hp : pickLongest (computeClusterSignificanceOfAllMutationPairs run rate) mp with
    | none => simp
    | some c => simp

/-- C1 witness: the theorem applied to a concrete candidate list with literal
p-values and threshold 2. -/
theorem C1_selector_longest_significant_witness :
    pickLongest [ClusterCandidate.mk 0 3 2 1] 2 = some (ClusterCandidate.mk 0 3 2 1) ∧
    (ClusterCandidate.mk 0 3 2 1).p_value < 2 := by
  have h := (C1_selector_longest_significant [ClusterCandidate.mk 0 3 2 1] [] 1 2).1
    (ClusterCandidate.mk 0 3 2 1) (by decide)
  exact ⟨by decide, h.2.1⟩

/-! ### Candidate membership facts -/

/-- Every scorer candidate is built from an index pair `i < j` of the run. -/
lemma scorer_mem_exists {l : List Int} {rate : ℚ} {c : ClusterCandidate}
    (hc : c ∈ computeClusterSignificanceOfAllMutationPairs l rate) :
    ∃ i j : ℕ, i < j ∧ j < l.length ∧ c.start = l.getD i 0 ∧ c.endPos = l.getD j 0 := by
  rw [computeClusterSignificanceOfAllMutationPairs_eq, List.mem_map] at hc
  obtain ⟨ij, hij, rfl⟩ := hc
  rw [mem_pairIndices] at hij
  exact ⟨ij.1, ij.2, hij.1, hij.2, rfl, rfl⟩

/-- A candidate the selector returns is one of the scored candidates. -/
lemma pickLongest_mem {cands : List ClusterCandidate} {mp : ℚ} {c : ClusterCandidate}
    (h : pickLongest cands mp = some c) : c ∈ cands := by
  rcases pickLongest_spec mp cands with ⟨h1, _⟩ | ⟨c', l1, l2, h1, h2, _, _⟩
  · rw [h1] at h
    exact absurd h (by simp)
  · rw [h1, Option.some_inj] at h
    subst h
    have : c' ∈ cands.filter (fun d => decide (d.p_value < mp)) := by
      rw [h2]
      exact List.mem_append.2 (Or.inr (List.mem_cons_self _ _))
    exact (List.mem_filter.1 this).1

/-- C8 counterexample: two records at the same position survive sorting, so a
run produced by the partitioner need not be strictly increasing, and the
scorer then yields a candidate with `start = end`. -/
theorem C8_counterexample_duplicate_positions :
    findPotentialClusteredMutations [(5:Int), 5] 10 = some [[5, 5]] ∧
    ¬ List.Chain' (· < ·) [(5:Int), 5] ∧
    (computeClusterSignificanceOfAllMutationPairs [(5:Int), 5] 1).map
      (fun c => (c.start, c.endPos)) = [(5, 5)] ∧
    ¬ ((5:Int) < 5) :=
  ⟨by decide, by norm_num [List.chain'_cons], by decide, by decide⟩

/-- C8 (amended): for ascending driver input every run is non-decreasing and
every candidate has `start ≤ end`; strict increase and `start < end` hold
exactly when the chromosome's positions are pairwise distinct (strictly
ascending), which duplicate records violate. -/
theorem C8_runs_monotone_spans (l : List Int) (maxd : Int) (runs : List (List Int)) (rate : ℚ)
    (hsorted : l.Chain' (· ≤ ·)) (h : findPotentialClusteredMutations l maxd = some runs) :
    (∀ r ∈ runs, r.Chain' (· ≤ ·)) ∧
    (∀ r ∈ runs, ∀ c ∈ computeClusterSignificanceOfAllMutationPairs r rate,
      c.start ≤ c.endPos) ∧
    (l.Chain' (· < ·) →
      (∀ r ∈ runs, r.Chain' (· < ·)) ∧
      ∀ r ∈ runs, ∀ c ∈ computeClusterSignificanceOfAllMutationPairs r rate,
        c.start < c.endPos) := by
  have hle : ∀ r ∈ runs, r.Chain' (· ≤ ·) := findPotentialClusteredMutations_chainR hsorted h
  refine ⟨hle, ?_, ?_⟩
  · intro r hr c hc
    obtain ⟨i, j, hij, hjlen, hs, he⟩ := scorer_mem_exists hc
    rw [hs, he]
    exact sorted_getD_le (hle r hr) (by omega) hjlen
  · intro hstrict
    have hlt : ∀ r ∈ runs, r.Chain' (· < ·) :=
      findPotentialClusteredMutations_chainR hstrict h
    refine ⟨hlt, ?_⟩
    intro r hr c hc
    obtain ⟨i, j, hij, hjlen, hs, he⟩ := scorer_mem_exists hc
    rw [hs, he]
    exact sorted_getD_lt (hlt r hr) hij hjlen

/-- C8 witness: the amended theorem applied to the strictly ascending
chromosome positions `[1, 3]`. -/
theorem C8_runs_monotone_spans_witness :
    (computeClusterSignificanceOfAllMutationPairs [(1:Int), 3] 1).all
      (fun c => decide (c.start < c.endPos)) = true := by
  have h := C8_runs_monotone_spans [(1:Int), 3] 10 [[1, 3]] 1
    (by norm_num [List.chain'_cons, List.chain'_singleton]) (by decide)
  have h2 := (h.2.2 (by norm_num [List.chain'_cons, List.chain'_singleton])).2 [1, 3] (by decide)
  rw [List.all_eq_true]
  intro c hc
  exact decide_eq_true (h2 c hc)

/-! ### Driver totality -/

lemma uniqueFirst_go_subset (seen : List String) :
    ∀ l : List String, ∀ x ∈ uniqueFirst.go seen l, x ∈ l
  | [] => by
    intro x hx
    simp [uniqueFirst.go] at hx
  | y :: ys => by
    intro x hx
    simp only [uniqueFirst.go] at hx
    split at hx
    · exact List.mem_cons_of_mem y (uniqueFirst_go_subset seen ys x hx)
    · rcases List.mem_cons.1 hx with rfl | hx
      · exact List.mem_cons_self x ys
      · exact List.mem_cons_of_mem y (uniqueFirst_go_subset (y :: seen) ys _ hx)

lemma chromosomePositions_ne_nil {records : List (String × Int)} {c : String}
    (h : c ∈ uniqueFirst (records.map Prod.fst)) : chromosomePositions records c ≠ [] := by
  have hc : c ∈ records.map Prod.fst := uniqueFirst_go_subset [] _ c h
  rw [List.mem_map] at hc
  obtain ⟨rec, hrec, hfst⟩ := hc
  have hmem : rec ∈ records.filter (fun r => r.1 == c) :=
    List.mem_filter.2 ⟨hrec, by simp [hfst]⟩
  have hlen : 0 < (chromosomePositions records c).length := by
    unfold chromosomePositions
    rw [(List.perm_insertionSort (· ≤ ·) _).length_eq, List.length_map]
    exact List.length_pos.2 (List.ne_nil_of_mem hmem)
  exact List.length_pos.1 hlen

lemma findPotentialClusteredMutations_isSome {l : List Int} (maxd : Int) (h : l ≠ []) :
    ∃ runs, findPotentialClusteredMutations l maxd = some runs := by
  cases l with
  | nil => exact absurd rfl h
  | cons a t => exact ⟨_, rfl⟩

lemma findSampleClustersGo_total (records : List (String × Int)) (rate mp : ℚ) (maxd : Int) :
    ∀ (cs : List String) (table : List Row),
      (∀ c ∈ cs, chromosomePositions records c ≠ []) →
      ∃ t, findSampleClustersGo records rate mp maxd cs table = some t
  | [], table => fun _ => ⟨table, rfl⟩
  | c :: cs, table => by
    intro hcs
    simp only [findSampleClustersGo]
    split
    · exact findSampleClustersGo_total records rate mp maxd cs table
        fun c' hc' => hcs c' (List.mem_cons_of_mem c hc')
    · obtain ⟨runs, hruns⟩ :=
        findPotentialClusteredMutations_isSome maxd (hcs c (List.mem_cons_self c cs))
      unfold clusterRowsForChromosome
      rw [hruns]
      exact findSampleClustersGo_total records rate mp maxd cs _
        fun c' hc' => hcs c' (List.mem_cons_of_mem c hc')

lemma findSampleClusters_total (records : List (String × Int)) (rate mp : ℚ) (maxd : Int) :
    ∃ t, findSampleClusters records rate mp maxd = some t := by
  unfold findSampleClusters
  exact findSampleClustersGo_total records rate mp maxd _ []
    fun c hc => chromosomePositions_ne_nil hc

/-- C7 counterexample: the partitioner itself raises on an empty position list
(`mutation_list[0]` on `[]` is an `IndexError`), modelled by `none` — the
claim's parenthetical "the partitioner applied to an empty position list does
not fail" is false. -/
theorem C7_counterexample_partitioner_empty_input :
    findPotentialClusteredMutations ([] : List Int) 10000 = none := by decide

/-- C7 (amended): an entirely empty sample yields a zero-row table with no
error, and the driver never errors on any sample — not because the partitioner
tolerates an empty list (it does not), but because the driver only iterates
chromosomes that occur in the sample, so every chromosome group it forms is
non-empty. -/
theorem C7_empty_sample_and_nonempty_groups :
    (∀ (rate mp : ℚ) (maxd : Int), findSampleClusters [] rate mp maxd = some []) ∧
    (∀ (records : List (String × Int)) (rate mp : ℚ) (maxd : Int),
      ∃ t, findSampleClusters records rate mp maxd = some t) ∧
    (∀ (records : List (String × Int)) (c : String),
      c ∈ uniqueFirst (records.map Prod.fst) → chromosomePositions records c ≠ []) :=
  ⟨fun _ _ _ => rfl, fun records rate mp maxd => findSampleClusters_total records rate mp maxd,
   fun _ _ h => chromosomePositions_ne_nil h⟩

/-- C7 witness: the empty sample and a concrete one-record sample. -/
theorem C7_empty_sample_and_nonempty_groups_witness :
    findSampleClusters [] 1 1 5 = some [] ∧
    (findSampleClusters [("chrI", 1)] 1 1 5).isSome = true := by
  refine ⟨C7_empty_sample_and_nonempty_groups.1 1 1 5, ?_⟩
  obtain ⟨t, ht⟩ := C7_empty_sample_and_nonempty_groups.2.1 [("chrI", 1)] 1 1 5
  rw [ht]
  rfl

/-- C6 counterexample: with `max_distance = 0` (≤ 0), `min_p_value = 2`
(outside (0,1)) and `min_cluster_mutations = 1` (< 2), the wrapper does not
reject — it computes and returns a table. -/
theorem C6_counterexample_invalid_params_accepted :
    ¬ (0 < (0:Int)) ∧ ¬ ((2:ℚ) < 1) ∧ (1:Int) < 2 ∧
    (analyzeSampleForMutationClusters [("chrI", 3), ("chrI", 3)] 10 2 0 1).isSome = true :=
  ⟨by decide, by decide, by decide, by rfl⟩

/-- C6 (amended): neither `analyzeSampleForMutationClusters` nor
`findSampleClusters` validates `max_distance`, `min_p_value` or
`min_cluster_mutations`; for every parameter combination — valid or not — the
computation proceeds and returns a table rather than surfacing a rejection. -/
theorem C6_no_parameter_validation (records : List (String × Int)) (genome_size : Int)
    (min_p_value : ℚ) (max_distance min_cluster_mutations : Int) :
    ∃ t, analyzeSampleForMutationClusters records genome_size min_p_value max_distance
      min_cluster_mutations = some t := by
  obtain ⟨t0, ht0⟩ := findSampleClusters_total records
    ((records.length : ℚ) / (genome_size : ℚ)) min_p_value max_distance
  refine ⟨t0.filter fun r => decide (min_cluster_mutations ≤ (r.Mutations : Int)), ?_⟩
  simp only [analyzeSampleForMutationClusters, ht0]

/-- C6 witness: the amended theorem at concrete invalid parameters. -/
theorem C6_no_parameter_validation_witness :
    (analyzeSampleForMutationClusters [("chrI", 1)] 7 2 (-1) 0).isSome = true := by
  obtain ⟨t, ht⟩ := C6_no_parameter_validation [("chrI", 1)] 7 2 (-1) 0
  rw [ht]
  rfl

/-- C4: the wrapper computes `per_site_probability` as the number of mutation
records divided by the genome size, invokes the driver with it, and keeps
exactly the driver rows whose mutation count is at least
`min_cluster_mutations` (in the list embedding, `reset_index(drop=True)` is
the identity: surviving rows are consecutively indexed by position). -/
theorem C4_wrapper_rate_and_postfilter (records : List (String × Int)) (genome_size : Int)
    (min_p_value : ℚ) (max_distance min_cluster_mutations : Int) :
    analyzeSampleForMutationClusters records genome_size min_p_value max_distance
        min_cluster_mutations
      = (findSampleClusters records ((records.length : ℚ) / (genome_size : ℚ)) min_p_value
          max_distance).map
          (fun t0 => t0.filter fun r => decide (min_cluster_mutations ≤ (r.Mutations : Int))) ∧
    ∀ t, analyzeSampleForMutationClusters records genome_size min_p_value max_distance
        min_cluster_mutations = some t →
      (∀ r ∈ t, min_cluster_mutations ≤ (r.Mutations : Int)) ∧
      ∀ t0, findSampleClusters records ((records.length : ℚ) / (genome_size : ℚ)) min_p_value
          max_distance = some t0 →
        t = t0.filter fun r => decide (min_cluster_mutations ≤ (r.Mutations : Int)) := by
  cases h : findSampleClusters records ((records.length : ℚ) / (genome_size : ℚ)) min_p_value
      max_distance with
  | none =>
    refine ⟨by simp only [analyzeSampleForMutationClusters, h, Option.map_none'], ?_⟩
    intro t ht
    rw [show analyzeSampleForMutationClusters records genome_size min_p_value max_distance
        min_cluster_mutations = none from by
      simp only [analyzeSampleForMutationClusters, h]] at ht
    exact absurd ht (by simp)
  | some t0 =>
    refine ⟨by simp only [analyzeSampleForMutationClusters, h, Option.map_some'], ?_⟩
    intro t ht
    rw [show analyzeSampleForMutationClusters records genome_size min_p_value max_distance
        min_cluster_mutations
      = some (t0.filter fun r => decide (min_cluster_mutations ≤ (r.Mutations : Int))) from by
      simp only [analyzeSampleForMutationClusters, h]] at ht
    rw [Option.some_inj] at ht
    subst ht
    refine ⟨?_, ?_⟩
    · intro r hr
      have := (List.mem_filter.1 hr).2
      exact of_decide_eq_true this
    · intro t0' ht0'
      have he : t0 = t0' := Option.some_inj.1 ht0'
      rw [he]

/-- C4 witness (Scenario D): two same-position records give one cluster row
with mutation count 2; with `min_cluster_mutations = 3` it is removed and the
table is empty, with `min_cluster_mutations = 2` every surviving row has count
at least 2. -/
theorem C4_wrapper_rate_and_postfilter_witness :
    analyzeSampleForMutationClusters [("chrI", 3), ("chrI", 3)] 10 2 0 3 = some [] ∧
    ∀ t, analyzeSampleForMutationClusters [("chrI", 3), ("chrI", 3)] 10 2 0 2 = some t →
      ∀ r ∈ t, (2:Int) ≤ (r.Mutations : Int) := by
  constructor
  · rw [(C4_wrapper_rate_and_postfilter [("chrI", 3), ("chrI", 3)] 10 2 0 3).1]
    with_unfolding_all decide
  · intro t ht
    exact ((C4_wrapper_rate_and_postfilter [("chrI", 3), ("chrI", 3)] 10 2 0 2).2 t ht).1

/-! ### The explicit cache refines the pure pipeline -/

lemma findClusterProbabilityCached_spec {cache : ProbCache} (h : CacheWF cache)
    (len : Int) (n : ℕ) (p : ℚ) :
    (findClusterProbabilityCached cache len n p).1 = findClusterProbability len n p ∧
    CacheWF (findClusterProbabilityCached cache len n p).2 := by
  unfold findClusterProbabilityCached
  cases hfind : cache.find? (fun kv => decide (kv.1 = (len, n, p))) with
  | none =>
    refine ⟨rfl, ?_⟩
    intro kv hkv
    rcases List.mem_cons.1 hkv with rfl | hkv
    · rfl
    · exact h kv hkv
  | some kv =>
    have hmem := List.mem_of_find?_eq_some hfind
    have hkey : kv.1 = (len, n, p) := by
      have hp := List.find?_some hfind
      simpa using hp
    have hval := h kv hmem
    refine ⟨?_, h⟩
    show kv.2 = findClusterProbability len n p
    rw [hval, hkey]

lemma computePairsCached_spec (l : List Int) (rate : ℚ) :
    ∀ (prs : List (Int × Int)) (cache : ProbCache), CacheWF cache →
      (computePairsCached l rate prs cache).1 = prs.map (fun pr =>
        { start := pr.1, endPos := pr.2,
          mutations := (l.filter fun x => decide (pr.1 ≤ x) && decide (x ≤ pr.2)).length,
          p_value := findClusterProbability (pr.2 - pr.1)
            ((l.filter fun x => decide (pr.1 ≤ x) && decide (x ≤ pr.2)).length) rate }) ∧
      CacheWF (computePairsCached l rate prs cache).2
  | [], cache => fun h => ⟨rfl, h⟩
  | pr :: prs, cache => by
    intro h
    obtain ⟨hv, hwf⟩ := findClusterProbabilityCached_spec h (pr.2 - pr.1)
      ((l.filter fun x => decide (pr.1 ≤ x) && decide (x ≤ pr.2)).length) rate
    obtain ⟨ih1, ih2⟩ := computePairsCached_spec l rate prs _ hwf
    constructor
    · simp only [computePairsCached]
      rw [List.map_cons, hv, ih1]
    · simp only [computePairsCached]
      exact ih2

lemma computeClusterSignificanceOfAllMutationPairsCached_spec (l : List Int) (rate : ℚ)
    {cache : ProbCache} (h : CacheWF cache) :
    (computeClusterSignificanceOfAllMutationPairsCached l rate cache).1
      = computeClusterSignificanceOfAllMutationPairs l rate ∧
    CacheWF (computeClusterSignificanceOfAllMutationPairsCached l rate cache).2 := by
  obtain ⟨h1, h2⟩ := computePairsCached_spec l rate (possiblePairs l) cache h
  exact ⟨h1, h2⟩

lemma find_largest_significant_clustersCached_spec (rate mp : ℚ) :
    ∀ (runs : List (List Int)) (cache : ProbCache), CacheWF cache →
      (find_largest_significant_clustersCached rate mp runs cache).1
        = find_largest_significant_clusters runs rate mp ∧
      CacheWF (find_largest_significant_clustersCached rate mp runs cache).2
  | [], cache => fun h => ⟨rfl, h⟩
  | run :: runs, cache => by
    intro h
    obtain ⟨hsc, hwf⟩ := computeClusterSignificanceOfAllMutationPairsCached_spec run rate h
    obtain ⟨ih1, ih2⟩ := find_largest_significant_clustersCached_spec rate mp runs _ hwf
    constructor
    · show (match pickLongest (computeClusterSignificanceOfAllMutationPairsCached run rate
          cache).1 mp with
        | none => (find_largest_significant_clustersCached rate mp runs
            (computeClusterSignificanceOfAllMutationPairsCached run rate cache).2).1
        | some c => c :: (find_largest_significant_clustersCached rate mp runs
            (computeClusterSignificanceOfAllMutationPairsCached run rate cache).2).1)
        = find_largest_significant_clusters (run :: runs) rate mp
      rw [hsc, ih1]
      unfold find_largest_significant_clusters
      rw [List.filterMap_cons]
      cases pickLongest (computeClusterSignificanceOfAllMutationPairs run rate) mp with
      | none => rfl
      | some c => rfl
    · exact ih2

lemma clusterRowsForChromosomeCached_spec (records : List (String × Int)) (rate mp : ℚ)
    (maxd : Int) (c : String) {cache : ProbCache} (h : CacheWF cache) :
    (clusterRowsForChromosomeCached records rate mp maxd c cache).1
      = clusterRowsForChromosome records rate mp maxd c ∧
    CacheWF (clusterRowsForChromosomeCached records rate mp maxd c cache).2 := by
  unfold clusterRowsForChromosomeCached clusterRowsForChromosome
  cases hp : findPotentialClusteredMutations (chromosomePositions records c) maxd with
  | none => exact ⟨rfl, h⟩
  | some runs =>
    obtain ⟨h1, h2⟩ := find_largest_significant_clustersCached_spec rate mp runs cache h
    refine ⟨?_, h2⟩
    show some (List.map (rowOfCluster c rate mp)
        (find_largest_significant_clustersCached rate mp runs cache).1)
      = some (List.map (rowOfCluster c rate mp) (find_largest_significant_clusters runs rate mp))
    rw [h1]

lemma findSampleClustersGoCached_spec (records : List (String × Int)) (rate mp : ℚ)
    (maxd : Int) :
    ∀ (cs : List String) (table : List Row) (cache : ProbCache), CacheWF cache →
      (findSampleClustersGoCached records rate mp maxd cs table cache).1
        = findSampleClustersGo records rate mp maxd cs table ∧
      CacheWF (findSampleClustersGoCached records rate mp maxd cs table cache).2
  | [], table, cache => fun h => ⟨rfl, h⟩
  | c :: cs, table, cache => by
    intro h
    simp only [findSampleClustersGoCached, findSampleClustersGo]
    split
    · exact findSampleClustersGoCached_spec records rate mp maxd cs table cache h
    · obtain ⟨h1, h2⟩ := @clusterRowsForChromosomeCached_spec records rate mp maxd c cache h
      rw [h1]
      cases hcr : clusterRowsForChromosome records rate mp maxd c with
      | none => exact ⟨rfl, h2⟩
      | some rows =>
        exact findSampleClustersGoCached_spec records rate mp maxd cs (table ++ rows) _ h2

lemma findSampleClustersCached_spec (records : List (String × Int)) (rate mp : ℚ) (maxd : Int)
    {cache : ProbCache} (h : CacheWF cache) :
    (findSampleClustersCached records rate mp maxd cache).1
      = findSampleClusters records rate mp maxd ∧
    CacheWF (findSampleClustersCached records rate mp maxd cache).2 :=
  findSampleClustersGoCached_spec records rate mp maxd _ [] cache h

lemma analyzeSampleForMutationClustersCached_spec (records : List (String × Int))
    (gsize : Int) (mp : ℚ) (maxd minmut : Int) {cache : ProbCache} (h : CacheWF cache) :
    (analyzeSampleForMutationClustersCached records gsize mp maxd minmut cache).1
      = analyzeSampleForMutationClusters records gsize mp maxd minmut ∧
    CacheWF (analyzeSampleForMutationClustersCached records gsize mp maxd minmut cache).2 := by
  obtain ⟨h1, h2⟩ := findSampleClustersCached_spec records
    ((records.length : ℚ) / (gsize : ℚ)) mp maxd h
  simp only [analyzeSampleForMutationClustersCached, analyzeSampleForMutationClusters, h1]
  cases findSampleClusters records ((records.length : ℚ) / (gsize : ℚ)) mp maxd with
  | none => exact ⟨rfl, h2⟩
  | some t => exact ⟨rfl, h2⟩

/-- C9: the pipeline is deterministic and idempotent — with the
`functools.cache` memoization made explicit, any two well-formed cache states
(in particular the state left behind by earlier runs) produce the same table
as the cache-free pipeline, bit for bit, for both the driver and the wrapper. -/
theorem C9_deterministic_cache_independent (records : List (String × Int)) (gsize : Int)
    (rate mp : ℚ) (maxd minmut : Int) (c1 c2 : ProbCache)
    (h1 : CacheWF c1) (h2 : CacheWF c2) :
    (findSampleClustersCached records rate mp maxd c1).1
      = findSampleClusters records rate mp maxd ∧
    (findSampleClustersCached records rate mp maxd c1).1
      = (findSampleClustersCached records rate mp maxd c2).1 ∧
    CacheWF (findSampleClustersCached records rate mp maxd c1).2 ∧
    (findSampleClustersCached records rate mp maxd
        (findSampleClustersCached records rate mp maxd c1).2).1
      = (findSampleClustersCached records rate mp maxd c1).1 ∧
    (analyzeSampleForMutationClustersCached records gsize mp maxd minmut c1).1
      = analyzeSampleForMutationClusters records gsize mp maxd minmut ∧
    (analyzeSampleForMutationClustersCached records gsize mp maxd minmut c1).1
      = (analyzeSampleForMutationClustersCached records gsize mp maxd minmut c2).1 := by
  obtain ⟨e1, w1⟩ := findSampleClustersCached_spec records rate mp maxd h1
  obtain ⟨e2, _⟩ := findSampleClustersCached_spec records rate mp maxd h2
  obtain ⟨e3, _⟩ := findSampleClustersCached_spec records rate mp maxd w1
  obtain ⟨a1, _⟩ := analyzeSampleForMutationClustersCached_spec records gsize mp maxd minmut h1
  obtain ⟨a2, _⟩ := analyzeSampleForMutationClustersCached_spec records gsize mp maxd minmut h2
  exact ⟨e1, by rw [e1, e2], w1, by rw [e3, e1], a1, by rw [a1, a2]⟩

/-- C9 witness: concrete caches — the empty one and one holding the value the
model returns at a negative span — feeding a concrete two-record sample. -/
theorem C9_deterministic_cache_independent_witness :
    (findSampleClustersCached [("chrI", 1), ("chrI", 2)] 1 1 5 []).1
      = findSampleClusters [("chrI", 1), ("chrI", 2)] 1 1 5 ∧
    (findSampleClustersCached [("chrI", 1), ("chrI", 2)] 1 1 5 []).1
      = (findSampleClustersCached [("chrI", 1), ("chrI", 2)] 1 1 5 [((-1, 2, 1), 0)]).1 := by
  have h := C9_deterministic_cache_independent [("chrI", 1), ("chrI", 2)] 10 1 1 5 2
    [] [((-1, 2, 1), 0)] (by intro kv hkv; simp at hkv)
    (by
      intro kv hkv
      rcases List.mem_cons.1 hkv with rfl | hkv
      · show (0:ℚ) = findClusterProbability (-1) 2 1
        unfold findClusterProbability
        rw [if_pos (by decide)]
      · simp at hkv)
  exact ⟨h.1, h.2.1⟩

/-! ### Per-chromosome blocks: disjoint, ordered spans -/

lemma sorted_head?_le_getLast? {r : List Int} (hs : r.Chain' (· ≤ ·)) :
    ∀ h0 ∈ r.head?, ∀ z ∈ r.getLast?, h0 ≤ z := by
  intro h0 hh0 z hz
  rw [Option.mem_def, List.head?_eq_getElem?, List.getElem?_eq_some_iff] at hh0
  rw [Option.mem_def, List.getLast?_eq_getElem?, List.getElem?_eq_some_iff] at hz
  obtain ⟨hb0, rfl⟩ := hh0
  obtain ⟨hbz, rfl⟩ := hz
  rw [← List.getD_eq_getElem r 0 hb0, ← List.getD_eq_getElem r 0 hbz]
  exact sorted_getD_le hs (by omega) hbz

lemma getElem?_getD_of_some {l : List Int} {n : ℕ} {a : Int} (h : l[n]? = some a) :
    l.getD n 0 = a := by
  rw [List.getD_eq_getElem?_getD, h]
  rfl

/-- The candidate the selector picks for one run lies inside the run's extent
and has a non-negative span. -/
lemma pickLongest_scorer_bounds {run : List Int} {rate mp : ℚ} {c : ClusterCandidate}
    (hs : run.Chain' (· ≤ ·))
    (h : pickLongest (computeClusterSignificanceOfAllMutationPairs run rate) mp = some c) :
    c.start ≤ c.endPos ∧ (∀ h0 ∈ run.head?, h0 ≤ c.start) ∧
    (∀ z ∈ run.getLast?, c.endPos ≤ z) := by
  obtain ⟨i, j, hij, hj, hcs, hce⟩ := scorer_mem_exists (pickLongest_mem h)
  refine ⟨?_, ?_, ?_⟩
  · rw [hcs, hce]
    exact sorted_getD_le hs (by omega) hj
  · intro h0 hh0
    rw [List.head?_eq_getElem?] at hh0
    rw [hcs, ← getElem?_getD_of_some hh0]
    exact sorted_getD_le hs (by omega) (by omega)
  · intro z hz
    rw [List.getLast?_eq_getElem?] at hz
    rw [hce, ← getElem?_getD_of_some hz]
    exact sorted_getD_le hs (by omega) (by omega)

/-- Transitivity of strict last-to-head separation through a sorted,
non-empty middle run. -/
lemma lastHead_trans {r r0 r' : List Int} (h0ne : r0 ≠ []) (h0s : r0.Chain' (· ≤ ·))
    (h1 : ∀ a ∈ r.getLast?, ∀ b ∈ r0.head?, a < b)
    (h2 : ∀ a ∈ r0.getLast?, ∀ b ∈ r'.head?, a < b) :
    ∀ a ∈ r.getLast?, ∀ b ∈ r'.head?, a < b := by
  intro a ha b hb
  obtain ⟨h0, hh0⟩ : ∃ h0, r0.head? = some h0 := by
    cases r0 with
    | nil => exact absurd rfl h0ne
    | cons x t => exact ⟨x, rfl⟩
  obtain ⟨z0, hz0⟩ : ∃ z0, r0.getLast? = some z0 := by
    rw [List.getLast?_eq_getElem?]
    have hlen : 0 < r0.length := List.length_pos.2 h0ne
    have hlt : r0.length - 1 < r0.length := by omega
    exact ⟨r0[r0.length - 1], List.getElem?_eq_some_iff.2 ⟨hlt, rfl⟩⟩
  have hab : a < h0 := h1 a ha h0 hh0
  have hmid : h0 ≤ z0 := sorted_head?_le_getLast? h0s h0 hh0 z0 hz0
  have hzb : z0 < b := h2 z0 hz0 b hb
  omega

/-- A last-to-head separation chain over sorted non-empty runs is pairwise. -/
lemma chain'_lastHead_pairwise :
    ∀ runs : List (List Int),
      (∀ r ∈ runs, r ≠ [] ∧ r.Chain' (· ≤ ·)) →
      runs.Chain' (fun r1 r2 => ∀ a ∈ r1.getLast?, ∀ b ∈ r2.head?, a < b) →
      runs.Pairwise (fun r1 r2 => ∀ a ∈ r1.getLast?, ∀ b ∈ r2.head?, a < b)
  | [] => fun _ _ => List.Pairwise.nil
  | r :: rest => by
    intro hprops hchain
    have hhd := (List.chain'_cons'.1 hchain).1
    have htl := (List.chain'_cons'.1 hchain).2
    have ih := chain'_lastHead_pairwise rest
      (fun r' hr' => hprops r' (List.mem_cons_of_mem r hr')) htl
    refine List.pairwise_cons.2 ⟨?_, ih⟩
    intro r' hr'
    cases rest with
    | nil => simp at hr'
    | cons r0 rest' =>
      rcases List.mem_cons.1 hr' with rfl | hr'
      · exact hhd r' rfl
      · have h0props := hprops r0 (List.mem_cons_of_mem r (List.mem_cons_self r0 rest'))
        exact lastHead_trans h0props.1 h0props.2 (hhd r0 rfl)
          ((List.pairwise_cons.1 ih).1 r' hr')

/-- If the partitioner emits any run from ascending input, the distance
threshold is non-negative. -/
lemma run_forces_nonneg_maxd {l : List Int} {maxd : Int} {runs : List (List Int)} {r : List Int}
    (hsorted : l.Chain' (· ≤ ·)) (h : findPotentialClusteredMutations l maxd = some runs)
    (hr : r ∈ runs) : 0 ≤ maxd := by
  have hgap := findPotentialClusteredMutations_gap h r hr
  have hle := findPotentialClusteredMutations_chainR hsorted h r hr
  have hlen := findPotentialClusteredMutations_length h r hr
  cases r with
  | nil => simp at hlen
  | cons a t =>
    cases t with
    | nil => simp at hlen
    | cons b t' =>
      have h1 : b - a ≤ maxd := (List.chain'_cons'.1 hgap).1 b rfl
      have h2 : a ≤ b := (List.chain'_cons'.1 hle).1 b rfl
      omega

/-- Rows of one chromosome block: all tagged with that chromosome, each with a
non-negative span, pairwise disjoint and in strictly increasing start order. -/
lemma clusterRowsForChromosome_block_spec {records : List (String × Int)} {rate mp : ℚ}
    {maxd : Int} {c : String} {rows : List Row}
    (h : clusterRowsForChromosome records rate mp maxd c = some rows) :
    (∀ r ∈ rows, r.Chromosome = c ∧ r.Start ≤ r.End) ∧
    rows.Pairwise (fun r1 r2 => r1.End < r2.Start ∧ r1.Start < r2.Start) := by
  have hsorted : (chromosomePositions records c).Chain' (· ≤ ·) :=
    List.chain'_iff_pairwise.2 (List.sorted_insertionSort (· ≤ ·) _)
  unfold clusterRowsForChromosome at h
  cases hp : findPotentialClusteredMutations (chromosomePositions records c) maxd with
  | none =>
    rw [hp] at h
    exact absurd h (by simp)
  | some runs =>
    rw [hp] at h
    rw [Option.some_inj] at h
    subst h
    have hrsorted : ∀ r ∈ runs, r.Chain' (· ≤ ·) :=
      findPotentialClusteredMutations_chainR hsorted hp
    have hrne : ∀ r ∈ runs, r ≠ [] := by
      intro r hr
      have := findPotentialClusteredMutations_length hp r hr
      intro he
      rw [he] at this
      simp at this
    constructor
    · intro r hr
      rw [List.mem_map] at hr
      obtain ⟨sc, hsc, rfl⟩ := hr
      unfold find_largest_significant_clusters at hsc
      rw [List.mem_filterMap] at hsc
      obtain ⟨run, hrun, hpick⟩ := hsc
      exact ⟨rfl, (pickLongest_scorer_bounds (hrsorted run hrun) hpick).1⟩
    · rw [List.pairwise_map]
      unfold find_largest_significant_clusters
      rw [List.pairwise_filterMap]
      have hsep := findPotentialClusteredMutations_sep hsorted hp
      have hsep' : runs.Chain' (fun r1 r2 => ∀ a ∈ r1.getLast?, ∀ b ∈ r2.head?, a < b) := by
        cases hruns : runs with
        | nil => exact List.chain'_nil
        | cons r0 rest =>
          have h0 : 0 ≤ maxd := run_forces_nonneg_maxd hsorted hp
            (by rw [hruns]; exact List.mem_cons_self r0 rest)
          rw [hruns] at hsep
          refine hsep.imp ?_
          intro r1 r2 h12 a ha b hb
          have := h12 a ha b hb
          omega
      have hpw := chain'_lastHead_pairwise runs
        (fun r hr => ⟨hrne r hr, hrsorted r hr⟩) hsep'
      refine hpw.imp_of_mem ?_
      intro run1 run2 h1mem h2mem hT c1 hc1 c2 hc2
      rw [Option.mem_def] at hc1 hc2
      obtain ⟨hspan1, hhd1, hlast1⟩ := pickLongest_scorer_bounds (hrsorted run1 h1mem) hc1
      obtain ⟨hspan2, hhd2, hlast2⟩ := pickLongest_scorer_bounds (hrsorted run2 h2mem) hc2
      obtain ⟨z1, hz1⟩ : ∃ z1, run1.getLast? = some z1 := by
        rw [List.getLast?_eq_getElem?]
        have hlen : 0 < run1.length := List.length_pos.2 (hrne run1 h1mem)
        exact ⟨run1[run1.length - 1], List.getElem?_eq_some_iff.2 ⟨by omega, rfl⟩⟩
      obtain ⟨h2, hh2⟩ : ∃ h2, run2.head? = some h2 := by
        cases hrun2 : run2 with
        | nil => exact absurd hrun2 (hrne run2 h2mem)
        | cons x t => exact ⟨x, rfl⟩
      have hzb : z1 < h2 := hT z1 hz1 h2 hh2
      have he1 : c1.endPos ≤ z1 := hlast1 z1 hz1
      have hs2 : h2 ≤ c2.start := hhd2 h2 hh2
      constructor
      · show (rowOfCluster c rate mp c1).End < (rowOfCluster c rate mp c2).Start
        show c1.endPos < c2.start
        omega
      · show (rowOfCluster c rate mp c1).Start < (rowOfCluster c rate mp c2).Start
        show c1.start < c2.start
        omega

lemma uniqueFirst_go_nodup :
    ∀ (seen l : List String),
      (uniqueFirst.go seen l).Nodup ∧ ∀ x ∈ uniqueFirst.go seen l, x ∉ seen
  | seen, [] => by simp [uniqueFirst.go]
  | seen, y :: ys => by
    simp only [uniqueFirst.go]
    split
    · exact uniqueFirst_go_nodup seen ys
    · obtain ⟨ih1, ih2⟩ := uniqueFirst_go_nodup (y :: seen) ys
      constructor
      · refine List.Nodup.cons ?_ ih1
        intro hy
        exact (ih2 y hy) (List.mem_cons_self y seen)
      · intro x hx hxseen
        rcases List.mem_cons.1 hx with rfl | hx
        · exact (by assumption : ¬ x ∈ seen) hxseen
        · exact (ih2 x hx) (List.mem_cons_of_mem y hxseen)

lemma uniqueFirst_nodup (l : List String) : (uniqueFirst l).Nodup :=
  (uniqueFirst_go_nodup [] l).1

/-- The driver loop's accumulated table is a prefix: running from `table` is
running from `[]` and prepending `table`. -/
lemma findSampleClustersGo_append (records : List (String × Int)) (rate mp : ℚ) (maxd : Int) :
    ∀ (cs : List String) (table : List Row),
      findSampleClustersGo records rate mp maxd cs table
        = (findSampleClustersGo records rate mp maxd cs []).map (table ++ ·)
  | [], table => by simp [findSampleClustersGo]
  | c :: cs, table => by
    simp only [findSampleClustersGo]
    split
    · exact findSampleClustersGo_append records rate mp maxd cs table
    · cases hcr : clusterRowsForChromosome records rate mp maxd c with
      | none => rfl
      | some rows =>
        show findSampleClustersGo records rate mp maxd cs (table ++ rows)
          = Option.map (fun x => table ++ x)
              (findSampleClustersGo records rate mp maxd cs ([] ++ rows))
        rw [findSampleClustersGo_append records rate mp maxd cs (table ++ rows),
          findSampleClustersGo_append records rate mp maxd cs ([] ++ rows)]
        cases findSampleClustersGo records rate mp maxd cs [] with
        | none => rfl
        | some sfx =>
          simp [List.append_assoc]

/-- Every row the driver loop emits carries a chromosome from the iterated
list. -/
lemma findSampleClustersGo_chrom (records : List (String × Int)) (rate mp : ℚ) (maxd : Int) :
    ∀ (cs : List String) (t : List Row),
      findSampleClustersGo records rate mp maxd cs [] = some t →
      ∀ r ∈ t, ∃ c ∈ cs, r.Chromosome = c
  | [], t => by
    intro h r hr
    rw [show t = [] from (Option.some_inj.1 h).symm] at hr
    simp at hr
  | c :: cs, t => by
    intro h r hr
    simp only [findSampleClustersGo] at h
    split at h
    · obtain ⟨c', hc', he⟩ := findSampleClustersGo_chrom records rate mp maxd cs t h r hr
      exact ⟨c', List.mem_cons_of_mem c hc', he⟩
    · cases hcr : clusterRowsForChromosome records rate mp maxd c with
      | none =>
        rw [hcr] at h
        have h' : (none : Option (List Row)) = some t := h
        exact absurd h' (by simp)
      | some rows =>
        rw [hcr] at h
        have h' : findSampleClustersGo records rate mp maxd cs ([] ++ rows) = some t := h
        rw [findSampleClustersGo_append] at h'
        cases hg : findSampleClustersGo records rate mp maxd cs [] with
        | none =>
          rw [hg] at h'
          exact absurd h' (by simp)
        | some sfx =>
          rw [hg] at h'
          have ht : t = ([] ++ rows) ++ sfx := (Option.some_inj.1 h').symm
          rw [ht] at hr
          rcases List.mem_append.1 hr with hr | hr
          · rw [List.nil_append] at hr
            have := (clusterRowsForChromosome_block_spec hcr).1 r hr
            exact ⟨c, List.mem_cons_self c cs, this.1⟩
          · obtain ⟨c', hc', he⟩ := findSampleClustersGo_chrom records rate mp maxd cs sfx hg r hr
            exact ⟨c', List.mem_cons_of_mem c hc', he⟩

/-- Rows of the driver loop: non-negative spans, and per chromosome the
filtered rows are pairwise disjoint in strictly increasing start order. -/
lemma findSampleClustersGo_rows_spec (records : List (String × Int)) (rate mp : ℚ)
    (maxd : Int) :
    ∀ (cs : List String) (t : List Row), cs.Nodup →
      findSampleClustersGo records rate mp maxd cs [] = some t →
      (∀ r ∈ t, r.Start ≤ r.End) ∧
      ∀ c : String, (t.filter fun r => r.Chromosome == c).Pairwise
        (fun r1 r2 => r1.End < r2.Start ∧ r1.Start < r2.Start)
  | [], t => by
    intro _ h
    rw [show t = [] from (Option.some_inj.1 h).symm]
    simp
  | c' :: cs, t => by
    intro hnodup h
    have hnodup' : cs.Nodup := (List.nodup_cons.1 hnodup).2
    have hc'cs : c' ∉ cs := (List.nodup_cons.1 hnodup).1
    simp only [findSampleClustersGo] at h
    split at h
    · exact findSampleClustersGo_rows_spec records rate mp maxd cs t hnodup' h
    · cases hcr : clusterRowsForChromosome records rate mp maxd c' with
      | none =>
        rw [hcr] at h
        have h' : (none : Option (List Row)) = some t := h
        exact absurd h' (by simp)
      | some rows =>
        rw [hcr] at h
        have h' : findSampleClustersGo records rate mp maxd cs ([] ++ rows) = some t := h
        rw [findSampleClustersGo_append] at h'
        cases hg : findSampleClustersGo records rate mp maxd cs [] with
        | none =>
          rw [hg] at h'
          exact absurd h' (by simp)
        | some sfx =>
          rw [hg] at h'
          have ht : t = ([] ++ rows) ++ sfx := (Option.some_inj.1 h').symm
          rw [List.nil_append] at ht
          obtain ⟨hblock, hblockpw⟩ := clusterRowsForChromosome_block_spec hcr
          obtain ⟨ih1, ih2⟩ := findSampleClustersGo_rows_spec records rate mp maxd cs sfx
            hnodup' hg
          subst ht
          constructor
          · intro r hr
            rcases List.mem_append.1 hr with hr | hr
            · exact (hblock r hr).2
            · exact ih1 r hr
          · intro c
            rw [List.filter_append]
            by_cases hcc : c' = c
            · subst hcc
              have h1 : rows.filter (fun r => r.Chromosome == c') = rows :=
                List.filter_eq_self.2 fun r hr => by simp [(hblock r hr).1]
              have h2 : sfx.filter (fun r => r.Chromosome == c') = [] := by
                rw [List.filter_eq_nil_iff]
                intro r hr
                obtain ⟨c'', hc'', he⟩ := findSampleClustersGo_chrom records rate mp maxd
                  cs sfx hg r hr
                simp only [beq_iff_eq, he]
                intro heq
                rw [heq] at hc''
                exact hc'cs hc''
              rw [h1, h2, List.append_nil]
              exact hblockpw
            · have h1 : rows.filter (fun r => r.Chromosome == c) = [] := by
                rw [List.filter_eq_nil_iff]
                intro r hr
                simp only [beq_iff_eq, (hblock r hr).1]
                exact hcc
              rw [h1, List.nil_append]
              exact ih2 c

/-- C10: within each chromosome of the returned table, the rows' [Start, End]
intervals are pairwise disjoint and appear in strictly increasing Start order
(each row also has Start ≤ End). -/
theorem C10_rows_disjoint_increasing (records : List (String × Int)) (rate mp : ℚ)
    (maxd : Int) (t : List Row) (c : String)
    (h : findSampleClusters records rate mp maxd = some t) :
    (∀ r ∈ t, r.Start ≤ r.End) ∧
    (t.filter fun r => r.Chromosome == c).Pairwise
      (fun r1 r2 => r1.End < r2.Start ∧ r1.Start < r2.Start) := by
  unfold findSampleClusters at h
  obtain ⟨h1, h2⟩ := findSampleClustersGo_rows_spec records rate mp maxd _ t
    (uniqueFirst_nodup _) h
  exact ⟨h1, h2 c⟩

/-- C10 witness: a concrete sample whose table has one degenerate-span row. -/
theorem C10_rows_disjoint_increasing_witness :
    ([Row.mk "chrI" 3 3 0 2 (1/25) (1/5) 2].all fun r => decide (r.Start ≤ r.End)) = true := by
  have h := C10_rows_disjoint_increasing [("chrI", 3), ("chrI", 3)] (1/5) 2 0
    [Row.mk "chrI" 3 3 0 2 (1/25) (1/5) 2] "chrI" (by with_unfolding_all decide)
  rw [List.all_eq_true]
  intro r hr
  exact decide_eq_true (h.1 r hr)
